import Mathlib

/-!
# Buffered Stackdriver client (`mixer/adapter/stackdriver/metric/bufferedClient.go`)

A shallow embedding of `batchTimeSeries`, `Record`, `Send` and `Close`.

* A slice `[]*monitoringpb.TimeSeries` is a `List α`; the element type is left abstract.
* Go's `int` is an `Int` kept in the 64-bit two's-complement range by `wrapInt`.
* The `for` loop of `batchTimeSeries` is run with fuel: the source loop has no bound of its
  own when `tsLimit` is not positive, so a run is `done`, `panicked` (a slice expression out of
  bounds) or `outOfFuel`.
* A slice expression `series[i:e]` panics unless `0 ≤ i ≤ e ≤ cap(series)`; the capacity is
  taken to be the length.
* The collaborators of `buffered` (the mutex `m`, the logger `l`, `pushMetrics`, `closeMe`, and
  the package function `merge`) are observed through a trace of events in call order.
  `pushMetrics` and `closeMe` answer from the trace of everything that happened before the call,
  which lets one function fail on some calls and succeed on others.
-/

namespace metric

/-! ## Machine integers and run outcomes -/

/-- Largest value of Go's `int` on a 64-bit platform. -/
def maxInt : Int := 2 ^ 63 - 1

/-- Smallest value of Go's `int` on a 64-bit platform. -/
def minInt : Int := -2 ^ 63

/-- Largest slice length for which `i + tsLimit` cannot overflow inside the loop of
`batchTimeSeries`; a slice of pointers is far shorter than this on any 64-bit machine. -/
def maxSliceLen : Nat := 2 ^ 62

/-- Two's-complement wrap-around of a 64-bit signed addition result. -/
def wrapInt (x : Int) : Int := (x + 2 ^ 63) % 2 ^ 64 - 2 ^ 63

/-- Outcome of running code that may panic or loop: the value returned, a run-time panic, or
the fuel given to the loop was used up before the loop exited. -/
inductive Run (β : Type) where
  | done (v : β)
  | panicked
  | outOfFuel
  deriving DecidableEq, Repr

/-- Apply a function to the value of a finished run. -/
def Run.map {β γ : Type} (f : β → γ) : Run β → Run γ
  | .done v => .done (f v)
  | .panicked => .panicked
  | .outOfFuel => .outOfFuel

/-! ## batchTimeSeries -/

/-- The slice expression `series[i:e]`, for indices already checked to be in bounds. A list
carries no capacity of its own: the capacity of `series` is taken to be its length, the least
capacity a slice can have, so an expression in bounds here is in bounds for every capacity. -/
def sliceRange {α : Type} (series : List α) (i e : Int) : List α :=
  (series.drop i.toNat).take (e.toNat - i.toNat)

/-- The loop `for i := 0; i < len(series); i += tsLimit` of `batchTimeSeries`, from the loop
state `(i, batches)`. The slice expression `series[i:e]` panics unless `0 ≤ i ≤ e ≤ cap(series)`,
with `cap(series) = len(series)` here; all three checks are made. -/
def batchLoop {α : Type} (series : List α) (tsLimit : Int) :
    Nat → Int → List (List α) → Run (List (List α))
  | 0, _, _ => .outOfFuel
  | fuel + 1, i, batches =>
    if i < (series.length : Int) then
      let e := wrapInt (i + tsLimit)
      let e := if e > (series.length : Int) then (series.length : Int) else e
      if 0 ≤ i ∧ i ≤ e ∧ e ≤ (series.length : Int) then
        batchLoop series tsLimit fuel (wrapInt (i + tsLimit)) (batches ++ [sliceRange series i e])
      else
        .panicked
    else
      .done batches

/-- Function `batchTimeSeries(series, tsLimit)`: `batches` starts as the nil slice and the loop
starts at `i = 0`. -/
def batchTimeSeries {α : Type} (fuel : Nat) (series : List α) (tsLimit : Int) :
    Run (List (List α)) :=
  batchLoop series tsLimit fuel 0 []

/-- The index pairs `(i, e)` of the slice expressions `series[i:e]` that the loop of
`batchTimeSeries` evaluates, in order, from index `i` on: the same loop, recording the indices
instead of the slices. An expression that is out of bounds is recorded and is the last one. -/
def sliceIndices {α : Type} (series : List α) (tsLimit : Int) : Nat → Int → List (Int × Int)
  | 0, _ => []
  | fuel + 1, i =>
    if i < (series.length : Int) then
      let e := wrapInt (i + tsLimit)
      let e := if e > (series.length : Int) then (series.length : Int) else e
      if 0 ≤ i ∧ i ≤ e ∧ e ≤ (series.length : Int) then
        (i, e) :: sliceIndices series tsLimit fuel (wrapInt (i + tsLimit))
      else
        [(i, e)]
    else
      []

/-! ## The buffered client and its collaborators -/

/-- A non-nil Go `error`; `Option Error` is an `error` value, `none` being `nil`. -/
structure Error where
  msg : String
  deriving DecidableEq, Repr

/-- The fields of `monitoringpb.CreateTimeSeriesRequest` that `Send` sets. -/
structure CreateTimeSeriesRequest (α : Type) where
  Name : String
  TimeSeries : List α
  deriving DecidableEq, Repr

/-- Logger methods of `adapter.Logger`. -/
inductive Level where
  | debug
  | info
  | warning
  | error
  deriving DecidableEq, Repr

/-- An argument passed to a logger format string. -/
inductive LogArg (α : Type) where
  | err (e : Error)
  | series (ts : List α)
  deriving DecidableEq, Repr

/-- One call of a logger method. -/
structure LogEntry (α : Type) where
  level : Level
  format : String
  args : List (LogArg α)
  deriving DecidableEq, Repr

/-- One call made by the client to a collaborator, with the result the collaborator gave. -/
inductive Event (α : Type) where
  | lock
  | unlock
  | mergeCall (series : List α)
  | log (entry : LogEntry α)
  | push (req : CreateTimeSeriesRequest α) (err : Option Error)
  | close (err : Option Error)
  deriving DecidableEq, Repr

/-- The struct `buffered`. The mutex `m` and the logger `l` carry no data of their own and are
seen through the `lock`, `unlock` and `log` events. `pushMetrics` and `closeMe.Close` are given
the events so far and return their `error`. -/
structure buffered (α : Type) where
  project : String
  pushMetrics : List (Event α) → CreateTimeSeriesRequest α → Option Error
  closeMe : List (Event α) → Option Error
  buffer : List α
  timeSeriesBatchSize : Int

/-- The package function `merge(series, logger)`, which is not part of this file: it returns the
merged series and may write to the logger it is handed. -/
abbrev mergeFunc (α : Type) := List α → List α × List (LogEntry α)

/-- Method `Record`: append `toSend` to the buffer under the mutex. -/
def Record {α : Type} (b : buffered α) (toSend : List α) (tr : List (Event α)) :
    buffered α × List (Event α) :=
  let tr := tr ++ [Event.lock]
  let b := { b with buffer := b.buffer ++ toSend }
  (b, tr ++ [Event.unlock])

/-- The loop `for _, timeSeries := range batches` of `Send`. -/
def pushLoop {α : Type} (b : buffered α) : List (List α) → List (Event α) → List (Event α)
  | [], tr => tr
  | timeSeries :: rest, tr =>
    let req : CreateTimeSeriesRequest α :=
      { Name := "projects/" ++ b.project, TimeSeries := timeSeries }
    let err := b.pushMetrics tr req
    let tr := tr ++ [Event.push req err]
    let tr :=
      match err with
      | some e =>
        tr ++ [Event.log ⟨Level.error, "Stackdriver returned: %v\nGiven data: %v",
          [LogArg.err e, LogArg.series timeSeries]⟩]
      | none => tr ++ [Event.log ⟨Level.debug, "Successfully sent data to Stackdriver.", []⟩]
    pushLoop b rest tr

/-- Method `Send`: one flush cycle. -/
def Send {α : Type} (merge : mergeFunc α) (fuel : Nat) (b : buffered α) (tr : List (Event α)) :
    Run (buffered α × List (Event α)) :=
  let tr := tr ++ [Event.lock]
  if b.buffer.length = 0 then
    let tr := tr ++ [Event.unlock]
    .done (b, tr ++ [Event.log ⟨Level.debug, "No data to send to Stackdriver.", []⟩])
  else
    let toSend := b.buffer
    let b := { b with buffer := [] }
    let tr := tr ++ [Event.unlock]
    let tr := tr ++ [Event.mergeCall toSend] ++ (merge toSend).2.map Event.log
    let merged := (merge toSend).1
    match batchTimeSeries fuel merged b.timeSeriesBatchSize with
    | .done batches => .done (b, pushLoop b batches tr)
    | .panicked => .panicked
    | .outOfFuel => .outOfFuel

/-- Method `Close`: log, flush once, then close the connection and return its error. -/
def Close {α : Type} (merge : mergeFunc α) (fuel : Nat) (b : buffered α) (tr : List (Event α)) :
    Run (buffered α × List (Event α) × Option Error) :=
  let tr := tr ++ [Event.log ⟨Level.info, "Sending last data before shutting down", []⟩]
  match Send merge fuel b tr with
  | .done (b, tr) =>
    let err := b.closeMe tr
    .done (b, tr ++ [Event.close err], err)
  | .panicked => .panicked
  | .outOfFuel => .outOfFuel

/-! ## Observations on traces -/

/-- The requests of the `pushMetrics` calls in a trace, in call order. -/
def pushRequests {α : Type} (tr : List (Event α)) : List (CreateTimeSeriesRequest α) :=
  tr.filterMap fun ev =>
    match ev with
    | .push req _ => some req
    | _ => none

/-- The results of the `closeMe.Close` calls in a trace, in call order. -/
def closeCalls {α : Type} (tr : List (Event α)) : List (Option Error) :=
  tr.filterMap fun ev =>
    match ev with
    | .close err => some err
    | _ => none

/-- The logger calls in a trace, in call order. -/
def logEntries {α : Type} (tr : List (Event α)) : List (LogEntry α) :=
  tr.filterMap fun ev =>
    match ev with
    | .log entry => some entry
    | _ => none

/-- The request that `Send` builds for one batch. -/
def requestFor {α : Type} (b : buffered α) (timeSeries : List α) : CreateTimeSeriesRequest α :=
  { Name := "projects/" ++ b.project, TimeSeries := timeSeries }

/-- The trace handed to the push loop by a `Send` that found data in the buffer. -/
def drainedTrace {α : Type} (merge : mergeFunc α) (b : buffered α) (tr : List (Event α)) :
    List (Event α) :=
  tr ++ [Event.lock] ++ [Event.unlock] ++ [Event.mergeCall b.buffer] ++
    (merge b.buffer).2.map Event.log

/-! ## Sequences of operations -/

/-- A call of one of the exported methods of the client. -/
inductive Op (α : Type) where
  | record (toSend : List α)
  | send
  | close
  deriving DecidableEq, Repr

/-- Run the operations one after the other on the same client. -/
def runOps {α : Type} (merge : mergeFunc α) (fuel : Nat) :
    List (Op α) → buffered α → List (Event α) → Run (buffered α × List (Event α))
  | [], b, tr => .done (b, tr)
  | .record toSend :: ops, b, tr =>
    runOps merge fuel ops (Record b toSend tr).1 (Record b toSend tr).2
  | .send :: ops, b, tr =>
    match Send merge fuel b tr with
    | .done (b, tr) => runOps merge fuel ops b tr
    | .panicked => .panicked
    | .outOfFuel => .outOfFuel
  | .close :: ops, b, tr =>
    match Close merge fuel b tr with
    | .done (b, tr, _) => runOps merge fuel ops b tr
    | .panicked => .panicked
    | .outOfFuel => .outOfFuel

/-- The arguments of the `Record` calls of a sequence of operations, concatenated in order. -/
def recorded {α : Type} : List (Op α) → List α
  | [] => []
  | .record toSend :: ops => toSend ++ recorded ops
  | _ :: ops => recorded ops

/-- The time series carried by the push calls of a trace, concatenated in call order. -/
def pushedSeries {α : Type} (tr : List (Event α)) : List α :=
  (pushRequests tr).flatMap fun req => req.TimeSeries

/-- The log entry that the loop of `Send` writes after the push of one batch. -/
def batchLogEntry {α : Type} (timeSeries : List α) (err : Option Error) : LogEntry α :=
  match err with
  | some e =>
    ⟨Level.error, "Stackdriver returned: %v\nGiven data: %v",
      [LogArg.err e, LogArg.series timeSeries]⟩
  | none => ⟨Level.debug, "Successfully sent data to Stackdriver.", []⟩

/-- The two events of one iteration of the loop of `Send`: the push, then its log entry. -/
def batchEvents {α : Type} (b : buffered α) (timeSeries : List α) (err : Option Error) :
    List (Event α) :=
  [Event.push (requestFor b timeSeries) err, Event.log (batchLogEntry timeSeries err)]

/-- The errors that `pushMetrics` returns to the loop of `Send`, one per batch, in order. -/
def pushResults {α : Type} (b : buffered α) : List (List α) → List (Event α) → List (Option Error)
  | [], _ => []
  | timeSeries :: rest, tr =>
    b.pushMetrics tr (requestFor b timeSeries) ::
      pushResults b rest (tr ++ batchEvents b timeSeries (b.pushMetrics tr (requestFor b timeSeries)))

/-- The events of the whole loop of `Send`, given the batches and the result of each push. -/
def loopEvents {α : Type} (b : buffered α) (batches : List (List α))
    (errs : List (Option Error)) : List (Event α) :=
  (batches.zip errs).flatMap fun p => batchEvents b p.1 p.2

/-- The number of `Close` calls in a sequence of operations. -/
def closeOps {α : Type} : List (Op α) → Nat
  | [] => 0
  | .close :: ops => closeOps ops + 1
  | _ :: ops => closeOps ops

/-- The events of a call of `Send` up to the point where it returns or where the split of the
merged data panics or stays in its loop: in the second case the mutex has been locked and
unlocked and `merge` has been called, and no push has been made. -/
def SendTrace {α : Type} (merge : mergeFunc α) (fuel : Nat) (b : buffered α)
    (tr : List (Event α)) : List (Event α) :=
  let tr := tr ++ [Event.lock]
  if b.buffer.length = 0 then
    let tr := tr ++ [Event.unlock]
    tr ++ [Event.log ⟨Level.debug, "No data to send to Stackdriver.", []⟩]
  else
    let toSend := b.buffer
    let b := { b with buffer := [] }
    let tr := tr ++ [Event.unlock]
    let tr := tr ++ [Event.mergeCall toSend] ++ (merge toSend).2.map Event.log
    let merged := (merge toSend).1
    match batchTimeSeries fuel merged b.timeSeriesBatchSize with
    | .done batches => pushLoop b batches tr
    | .panicked => tr
    | .outOfFuel => tr

/-- The events of a call of `Close` up to the point where it returns or where its `Send` stops:
`closeMe.Close` is called only after `Send` has returned. -/
def CloseTrace {α : Type} (merge : mergeFunc α) (fuel : Nat) (b : buffered α)
    (tr : List (Event α)) : List (Event α) :=
  let tr := tr ++ [Event.log ⟨Level.info, "Sending last data before shutting down", []⟩]
  match Send merge fuel b tr with
  | .done (b, tr) => tr ++ [Event.close (b.closeMe tr)]
  | .panicked => SendTrace merge fuel b tr
  | .outOfFuel => SendTrace merge fuel b tr

/-- The events of a run of operations up to the point where it returns or where one of its
operations stops; the operations after that one are never started. -/
def runOpsTrace {α : Type} (merge : mergeFunc α) (fuel : Nat) :
    List (Op α) → buffered α → List (Event α) → List (Event α)
  | [], _, tr => tr
  | .record toSend :: ops, b, tr =>
    runOpsTrace merge fuel ops (Record b toSend tr).1 (Record b toSend tr).2
  | .send :: ops, b, tr =>
    match Send merge fuel b tr with
    | .done (b, tr) => runOpsTrace merge fuel ops b tr
    | .panicked => SendTrace merge fuel b tr
    | .outOfFuel => SendTrace merge fuel b tr
  | .close :: ops, b, tr =>
    match Close merge fuel b tr with
    | .done (b, tr, _) => runOpsTrace merge fuel ops b tr
    | .panicked => CloseTrace merge fuel b tr
    | .outOfFuel => CloseTrace merge fuel b tr

/-- The quotient `n / t` rounded up, for `t > 0`. -/
def ceilDiv (n t : Nat) : Nat := (n + t - 1) / t

/-! ## The loop of batchTimeSeries -/

theorem wrapInt_of_range (x : Int) (h0 : 0 ≤ x) (h1 : x ≤ maxInt) : wrapInt x = x := by
  unfold wrapInt
  unfold maxInt at h1
  omega

theorem sliceRange_nat {α : Type} (series : List α) (i t : Nat) :
    sliceRange series (i : Int) (if ((i + t : Nat) : Int) > (series.length : Int)
      then (series.length : Int) else ((i + t : Nat) : Int)) = (series.drop i).take t := by
  unfold sliceRange
  split
  · next h =>
    have h1 : series.length < i + t := by exact_mod_cast h
    simp only [Int.toNat_ofNat]
    rw [List.take_of_length_le (by simp), List.take_of_length_le (by simp; omega)]
  · simp only [Int.toNat_ofNat, Nat.add_sub_cancel_left]

/-- One iteration of the loop for a positive limit, on natural-number indices: the index is `0`
or at least one full step in, so `i + tsLimit` does not overflow. -/
theorem batchLoop_step {α : Type} (series : List α) (t : Nat)
    (htmax : (t : Int) ≤ maxInt) (hlen : series.length ≤ maxSliceLen)
    (fuel i : Nat) (batches : List (List α)) (hi : i = 0 ∨ t ≤ i) (hlt : i < series.length) :
    batchLoop series t (fuel + 1) i batches =
      batchLoop series t fuel ((i + t : Nat) : Int) (batches ++ [(series.drop i).take t]) := by
  have hw : wrapInt ((i : Int) + (t : Int)) = ((i + t : Nat) : Int) := by
    rw [wrapInt_of_range]
    · push_cast; rfl
    · omega
    · unfold maxInt at *
      unfold maxSliceLen at hlen
      omega
  have hlt2 : (i : Int) < (series.length : Int) := by exact_mod_cast hlt
  rw [batchLoop]
  simp only [hlt2, if_true, hw]
  rw [sliceRange_nat]
  have hle : (0 : Int) ≤ (i : Int) ∧ (i : Int) ≤
      (if ((i + t : Nat) : Int) > (series.length : Int) then (series.length : Int)
        else ((i + t : Nat) : Int)) ∧
      (if ((i + t : Nat) : Int) > (series.length : Int) then (series.length : Int)
        else ((i + t : Nat) : Int)) ≤ (series.length : Int) := by
    refine ⟨by omega, ?_, ?_⟩
    · split <;> omega
    · split <;> omega
  rw [if_pos hle]

/-- The loop exits at once when the index has reached the length. -/
theorem batchLoop_exit {α : Type} (series : List α) (tsLimit : Int) (fuel : Nat) (i : Int)
    (batches : List (List α)) (h : (series.length : Int) ≤ i) :
    batchLoop series tsLimit (fuel + 1) i batches = .done batches := by
  rw [batchLoop, if_neg (by omega)]

/-- For a positive limit the loop returns, given more fuel than elements left: it appends
batches of at most `t` elements each, none of them empty, whose concatenation is the rest of
the series from index `i` on. -/
theorem batchLoop_done {α : Type} (series : List α) (t : Nat) (ht : 0 < t)
    (htmax : (t : Int) ≤ maxInt) (hlen : series.length ≤ maxSliceLen) :
    ∀ (fuel i : Nat) (batches : List (List α)), (i = 0 ∨ t ≤ i) → series.length - i < fuel →
      ∃ bs, batchLoop series t fuel i batches = .done (batches ++ bs) ∧
        bs.flatten = series.drop i ∧ (∀ x ∈ bs, x.length ≤ t) ∧ (∀ x ∈ bs, x ≠ []) := by
  intro fuel
  induction fuel with
  | zero => intro i batches _ h; omega
  | succ fuel ih =>
    intro i batches hi hfuel
    by_cases hlt : i < series.length
    · obtain ⟨bs, hrun, hjoin, hsize, hne⟩ :=
        ih (i + t) (batches ++ [(series.drop i).take t]) (Or.inr (by omega)) (by omega)
      refine ⟨(series.drop i).take t :: bs, ?_, ?_, ?_, ?_⟩
      · rw [batchLoop_step series t htmax hlen fuel i batches hi hlt, hrun]
        simp
      · rw [List.flatten_cons, hjoin, ← List.drop_drop, List.take_append_drop]
      · intro x hx
        rcases List.mem_cons.1 hx with rfl | hx
        · exact List.length_take_le _ _
        · exact hsize x hx
      · intro x hx
        rcases List.mem_cons.1 hx with rfl | hx
        · intro hnil
          have hl := congrArg List.length hnil
          simp at hl
          omega
        · exact hne x hx
    · refine ⟨[], ?_, ?_, ?_, ?_⟩
      · rw [batchLoop_exit series t fuel i batches (by exact_mod_cast (by omega : series.length ≤ i))]
        simp
      · rw [List.drop_eq_nil_of_le (by omega)]
        rfl
      · intro x hx; cases hx
      · intro x hx; cases hx

/-- Function `batchTimeSeries` returns for every limit in `1 ..= maxInt`, given more fuel than
the series has elements. -/
theorem batchTimeSeries_done {α : Type} (series : List α) (tsLimit : Int) (h0 : 0 < tsLimit)
    (hmax : tsLimit ≤ maxInt) (hlen : series.length ≤ maxSliceLen) (fuel : Nat)
    (hfuel : series.length < fuel) :
    ∃ batches, batchTimeSeries fuel series tsLimit = .done batches ∧
      batches.flatten = series ∧ (∀ x ∈ batches, (x.length : Int) ≤ tsLimit) ∧
      (∀ x ∈ batches, x ≠ []) := by
  obtain ⟨t, rfl⟩ := Int.eq_ofNat_of_zero_le (le_of_lt h0)
  have ht : 0 < t := by exact_mod_cast h0
  obtain ⟨bs, hrun, hjoin, hsize, hne⟩ :=
    batchLoop_done series t ht hmax hlen fuel 0 [] (Or.inl rfl) (by omega)
  refine ⟨bs, ?_, ?_, ?_, hne⟩
  · unfold batchTimeSeries
    simpa using hrun
  · simpa using hjoin
  · intro x hx
    exact_mod_cast hsize x hx

/-! ## Traces of Send and Close -/

@[simp] theorem pushRequests_append {α : Type} (tr tr2 : List (Event α)) :
    pushRequests (tr ++ tr2) = pushRequests tr ++ pushRequests tr2 := by
  simp [pushRequests, List.filterMap_append]

@[simp] theorem closeCalls_append {α : Type} (tr tr2 : List (Event α)) :
    closeCalls (tr ++ tr2) = closeCalls tr ++ closeCalls tr2 := by
  simp [closeCalls, List.filterMap_append]

@[simp] theorem logEntries_append {α : Type} (tr tr2 : List (Event α)) :
    logEntries (tr ++ tr2) = logEntries tr ++ logEntries tr2 := by
  simp [logEntries, List.filterMap_append]

@[simp] theorem pushRequests_map_log {α : Type} (logs : List (LogEntry α)) :
    pushRequests (logs.map Event.log) = [] := by
  induction logs with
  | nil => rfl
  | cons entry logs ih => simp [pushRequests]

@[simp] theorem closeCalls_map_log {α : Type} (logs : List (LogEntry α)) :
    closeCalls (logs.map Event.log) = [] := by
  induction logs with
  | nil => rfl
  | cons entry logs ih => simp [closeCalls]

/-- The push calls of the loop of `Send` are one request per batch, in batch order, whatever
the calls return. -/
theorem pushRequests_pushLoop {α : Type} (b : buffered α) :
    ∀ (batches : List (List α)) (tr : List (Event α)),
      pushRequests (pushLoop b batches tr) = pushRequests tr ++ batches.map (requestFor b) := by
  intro batches
  induction batches with
  | nil => intro tr; simp [pushLoop]
  | cons ts rest ih =>
    intro tr
    rw [pushLoop, ih]
    cases b.pushMetrics tr { Name := "projects/" ++ b.project, TimeSeries := ts } <;>
      simp [pushRequests, requestFor]

/-- The loop of `Send` never calls `closeMe.Close`. -/
theorem closeCalls_pushLoop {α : Type} (b : buffered α) :
    ∀ (batches : List (List α)) (tr : List (Event α)),
      closeCalls (pushLoop b batches tr) = closeCalls tr := by
  intro batches
  induction batches with
  | nil => intro tr; simp [pushLoop]
  | cons ts rest ih =>
    intro tr
    rw [pushLoop, ih]
    cases b.pushMetrics tr { Name := "projects/" ++ b.project, TimeSeries := ts } <;>
      simp [closeCalls]

/-- A `Send` on an empty buffer. -/
theorem Send_empty {α : Type} (merge : mergeFunc α) (fuel : Nat) (b : buffered α)
    (tr : List (Event α)) (h : b.buffer = []) :
    Send merge fuel b tr = .done (b, tr ++ [Event.lock] ++ [Event.unlock] ++
      [Event.log ⟨Level.debug, "No data to send to Stackdriver.", []⟩]) := by
  unfold Send
  simp [h]

/-- A `Send` on a non-empty buffer, in terms of the split of the merged data. -/
theorem Send_nonempty {α : Type} (merge : mergeFunc α) (fuel : Nat) (b : buffered α)
    (tr : List (Event α)) (h : b.buffer ≠ []) :
    Send merge fuel b tr =
      (batchTimeSeries fuel (merge b.buffer).1 b.timeSeriesBatchSize).map fun batches =>
        ({ b with buffer := [] },
          pushLoop { b with buffer := [] } batches (drainedTrace merge b tr)) := by
  unfold Send drainedTrace
  have h2 : ¬ b.buffer.length = 0 := by
    intro hc
    exact h (List.length_eq_zero.1 hc)
  simp only [h2, if_false]
  cases batchTimeSeries fuel (merge b.buffer).1 b.timeSeriesBatchSize <;> rfl

/-- A `Send` on a non-empty buffer whose split returns `batches`. -/
theorem Send_nonempty_done {α : Type} (merge : mergeFunc α) (fuel : Nat) (b : buffered α)
    (tr : List (Event α)) (h : b.buffer ≠ []) (batches : List (List α))
    (hrun : batchTimeSeries fuel (merge b.buffer).1 b.timeSeriesBatchSize = .done batches) :
    Send merge fuel b tr = .done ({ b with buffer := [] },
      pushLoop { b with buffer := [] } batches (drainedTrace merge b tr)) := by
  rw [Send_nonempty merge fuel b tr h, hrun]
  rfl

/-- The push requests after the push loop of a `Send` that found data. -/
theorem pushRequests_drained {α : Type} (merge : mergeFunc α) (b b2 : buffered α)
    (tr : List (Event α)) (batches : List (List α)) :
    pushRequests (pushLoop b2 batches (drainedTrace merge b tr)) =
      pushRequests tr ++ batches.map (requestFor b2) := by
  rw [pushRequests_pushLoop]
  simp [drainedTrace, pushRequests]

/-- For a limit of zero the loop makes no progress on a non-empty series: the index stays `0`
and no amount of fuel lets it exit. -/
theorem batchLoop_zero_limit {α : Type} (series : List α) (hne : series ≠ []) :
    ∀ (fuel : Nat) (batches : List (List α)), batchLoop series 0 fuel 0 batches = .outOfFuel := by
  have hpos : (0 : Int) < (series.length : Int) := by
    have := List.length_pos.2 hne
    exact_mod_cast this
  have hw : wrapInt (0 + 0) = 0 := by decide
  intro fuel
  induction fuel with
  | zero => intro batches; rfl
  | succ fuel ih =>
    intro batches
    rw [batchLoop]
    simp only [hpos, if_true, hw]
    have hgt : ¬ ((0 : Int) > (series.length : Int)) := by omega
    simp only [hgt, if_false]
    rw [if_pos ⟨le_refl _, le_refl _, le_of_lt hpos⟩]
    exact ih _

/-- Every state is the same state with its own buffer put back. -/
theorem buffered_reset_of_empty {α : Type} (b : buffered α) (h : b.buffer = []) :
    ({ b with buffer := [] } : buffered α) = b := by
  cases b
  simp_all

theorem flatMap_requestFor {α : Type} (b : buffered α) (batches : List (List α)) :
    (batches.map (requestFor b)).flatMap (fun req => req.TimeSeries) = batches.flatten := by
  induction batches with
  | nil => rfl
  | cons ts rest ih => simp [requestFor, List.flatMap_cons, List.flatten_cons] at ih ⊢; exact ih

/-- A flush cycle under a positive batch size returns: the buffer is drained, one request per
batch of the merged data has been pushed, nothing was closed. -/
theorem Send_returns {α : Type} (merge : mergeFunc α) (b : buffered α) (tr : List (Event α))
    (h0 : 0 < b.timeSeriesBatchSize) (hmax : b.timeSeriesBatchSize ≤ maxInt)
    (hlen : (merge b.buffer).1.length ≤ maxSliceLen)
    (fuel : Nat) (hfuel : (merge b.buffer).1.length < fuel) :
    ∃ batches tr2, Send merge fuel b tr = .done ({ b with buffer := [] }, tr2) ∧
      pushRequests tr2 = pushRequests tr ++ batches.map (requestFor b) ∧
      closeCalls tr2 = closeCalls tr ∧
      (b.buffer = [] → batches = []) ∧
      (b.buffer ≠ [] →
        batchTimeSeries fuel (merge b.buffer).1 b.timeSeriesBatchSize = .done batches ∧
        batches.flatten = (merge b.buffer).1) := by
  by_cases hbuf : b.buffer = []
  · refine ⟨[], tr ++ [Event.lock] ++ [Event.unlock] ++
      [Event.log ⟨Level.debug, "No data to send to Stackdriver.", []⟩], ?_, ?_, ?_,
      fun _ => rfl, fun h => absurd hbuf h⟩
    · rw [buffered_reset_of_empty b hbuf]
      exact Send_empty merge fuel b tr hbuf
    · simp [pushRequests]
    · simp [closeCalls]
  · obtain ⟨batches, hrun, hjoin, _, _⟩ :=
      batchTimeSeries_done (merge b.buffer).1 b.timeSeriesBatchSize h0 hmax hlen fuel hfuel
    refine ⟨batches, _, Send_nonempty_done merge fuel b tr hbuf batches hrun, ?_, ?_,
      fun h => absurd h hbuf, fun _ => ⟨hrun, hjoin⟩⟩
    · exact pushRequests_drained merge b _ tr batches
    · rw [closeCalls_pushLoop]
      simp [drainedTrace, closeCalls]

/-- What a returning `Close` did, for any state: it ran `Send` after its log line and then
called `closeMe.Close` once, on the trace `Send` left, returning that call's error. -/
theorem Close_done_iff {α : Type} (merge : mergeFunc α) (fuel : Nat) (b : buffered α)
    (tr : List (Event α)) (b2 : buffered α) (tr2 : List (Event α)) (err : Option Error) :
    Close merge fuel b tr = .done (b2, tr2, err) ↔
      ∃ tr1, Send merge fuel b
          (tr ++ [Event.log ⟨Level.info, "Sending last data before shutting down", []⟩]) =
            .done (b2, tr1) ∧
        tr2 = tr1 ++ [Event.close (b2.closeMe tr1)] ∧ err = b2.closeMe tr1 := by
  unfold Close
  simp only []
  cases hS : Send merge fuel b
      (tr ++ [Event.log ⟨Level.info, "Sending last data before shutting down", []⟩]) with
  | done r =>
    obtain ⟨bS, trS⟩ := r
    simp only [Run.done.injEq, Prod.mk.injEq]
    constructor
    · rintro ⟨rfl, rfl, rfl⟩
      exact ⟨trS, ⟨rfl, rfl⟩, rfl, rfl⟩
    · rintro ⟨tr1, ⟨rfl, rfl⟩, rfl, rfl⟩
      exact ⟨rfl, rfl, rfl⟩
  | panicked => simp
  | outOfFuel => simp

@[simp] theorem pushedSeries_append {α : Type} (tr tr2 : List (Event α)) :
    pushedSeries (tr ++ tr2) = pushedSeries tr ++ pushedSeries tr2 := by
  simp [pushedSeries, List.flatMap_append]

/-- With an identity merge a flush cycle moves the whole buffer, and nothing else, into the
pushed series. -/
theorem Send_conserves {α : Type} (merge : mergeFunc α) (hid : ∀ xs, (merge xs).1 = xs)
    (b : buffered α) (tr : List (Event α))
    (h0 : 0 < b.timeSeriesBatchSize) (hmax : b.timeSeriesBatchSize ≤ maxInt)
    (hlen : b.buffer.length ≤ maxSliceLen) (fuel : Nat) (hfuel : b.buffer.length < fuel) :
    ∃ tr2, Send merge fuel b tr = .done ({ b with buffer := [] }, tr2) ∧
      pushedSeries tr2 = pushedSeries tr ++ b.buffer := by
  obtain ⟨batches, tr2, hsend, hpush, _, hempty, hfull⟩ :=
    Send_returns merge b tr h0 hmax (by rw [hid]; exact hlen) fuel (by rw [hid]; exact hfuel)
  refine ⟨tr2, hsend, ?_⟩
  have hflat : batches.flatten = b.buffer := by
    by_cases hbuf : b.buffer = []
    · rw [hempty hbuf, hbuf]
      rfl
    · rw [(hfull hbuf).2, hid]
  unfold pushedSeries
  rw [hpush, List.flatMap_append, flatMap_requestFor, hflat]

/-- Conservation of data over any sequence of operations, from any state with a positive batch
size and an identity merge: what has been pushed so far followed by the buffer grows by
exactly the recorded arguments. -/
theorem runOps_conserves {α : Type} (merge : mergeFunc α) (hid : ∀ xs, (merge xs).1 = xs)
    (fuel : Nat) :
    ∀ (ops : List (Op α)) (b : buffered α) (tr : List (Event α)),
      0 < b.timeSeriesBatchSize → b.timeSeriesBatchSize ≤ maxInt →
      b.buffer.length + (recorded ops).length ≤ maxSliceLen →
      b.buffer.length + (recorded ops).length < fuel →
      ∃ b2 tr2, runOps merge fuel ops b tr = .done (b2, tr2) ∧
        pushedSeries tr2 ++ b2.buffer = pushedSeries tr ++ b.buffer ++ recorded ops := by
  intro ops
  induction ops with
  | nil =>
    intro b tr _ _ _ _
    exact ⟨b, tr, rfl, by simp [recorded]⟩
  | cons op ops ih =>
    intro b tr h0 hmax hlen hfuel
    cases op with
    | record toSend =>
      simp only [recorded, List.length_append] at hlen hfuel
      obtain ⟨b2, tr2, hrun, hinv⟩ := ih (Record b toSend tr).1 (Record b toSend tr).2 h0 hmax
        (by simp only [Record, List.length_append]; omega)
        (by simp only [Record, List.length_append]; omega)
      refine ⟨b2, tr2, ?_, ?_⟩
      · rw [runOps]
        exact hrun
      · rw [hinv]
        simp [Record, recorded, pushedSeries, pushRequests]
    | send =>
      simp only [recorded] at hlen hfuel ⊢
      obtain ⟨tr1, hsend, hpushed⟩ :=
        Send_conserves merge hid b tr h0 hmax (by omega) fuel (by omega)
      obtain ⟨b2, tr2, hrun, hinv⟩ := ih { b with buffer := [] } tr1 h0 hmax
        (by simp only [List.length_nil]; omega) (by simp only [List.length_nil]; omega)
      refine ⟨b2, tr2, ?_, ?_⟩
      · rw [runOps, hsend]
        exact hrun
      · rw [hinv, hpushed]
        simp
    | close =>
      simp only [recorded] at hlen hfuel ⊢
      obtain ⟨tr1, hsend, hpushed⟩ := Send_conserves merge hid b
        (tr ++ [Event.log ⟨Level.info, "Sending last data before shutting down", []⟩])
        h0 hmax (by omega) fuel (by omega)
      obtain ⟨b2, tr2, hrun, hinv⟩ := ih { b with buffer := [] }
        (tr1 ++ [Event.close (b.closeMe tr1)]) h0 hmax
        (by simp only [List.length_nil]; omega) (by simp only [List.length_nil]; omega)
      refine ⟨b2, tr2, ?_, ?_⟩
      · have hclose : Close merge fuel b tr = .done ({ b with buffer := [] },
            tr1 ++ [Event.close (b.closeMe tr1)], b.closeMe tr1) :=
          (Close_done_iff merge fuel b tr _ _ _).2 ⟨tr1, hsend, rfl, rfl⟩
        rw [runOps, hclose]
        exact hrun
      · rw [hinv, pushedSeries_append, hpushed]
        simp [pushedSeries, pushRequests]

/-- A `Send` changes no field but the buffer, whenever it returns. -/
theorem Send_done_fields {α : Type} (merge : mergeFunc α) (fuel : Nat) (b b2 : buffered α)
    (tr tr2 : List (Event α)) (h : Send merge fuel b tr = .done (b2, tr2)) :
    b2 = { b with buffer := [] } := by
  by_cases hbuf : b.buffer = []
  · rw [Send_empty merge fuel b tr hbuf] at h
    simp only [Run.done.injEq, Prod.mk.injEq] at h
    rw [← h.1, buffered_reset_of_empty b hbuf]
  · rw [Send_nonempty merge fuel b tr hbuf] at h
    cases hrun : batchTimeSeries fuel (merge b.buffer).1 b.timeSeriesBatchSize with
    | done batches =>
      rw [hrun] at h
      simp only [Run.map, Run.done.injEq, Prod.mk.injEq] at h
      exact h.1.symm
    | panicked => rw [hrun] at h; cases h
    | outOfFuel => rw [hrun] at h; cases h

/-- With a batch size of zero a `Send` that finds data never returns. -/
theorem Send_zero_batch_size {α : Type} (merge : mergeFunc α) (fuel : Nat) (b : buffered α)
    (tr : List (Event α)) (hbuf : b.buffer ≠ []) (hmerged : (merge b.buffer).1 ≠ [])
    (hsize : b.timeSeriesBatchSize = 0) : Send merge fuel b tr = .outOfFuel := by
  rw [Send_nonempty merge fuel b tr hbuf, hsize]
  unfold batchTimeSeries
  rw [batchLoop_zero_limit _ hmerged]
  rfl

/-! ## The shape of the split -/

/-- One more step of `t` is one more batch, while elements are left. -/
theorem ceilDiv_step (n i t : Nat) (ht : 0 < t) (hlt : i < n) :
    ceilDiv (n - i) t = ceilDiv (n - (i + t)) t + 1 := by
  unfold ceilDiv
  by_cases h : i + t ≤ n
  · have e : n - i + t - 1 = (n - (i + t) + t - 1) + t := by omega
    rw [e, Nat.add_div_right _ ht]
  · have e : n - i + t - 1 = (n - i - 1) + t := by omega
    have z : n - (i + t) + t - 1 = t - 1 := by omega
    rw [e, Nat.add_div_right _ ht, z, Nat.div_eq_of_lt (by omega), Nat.div_eq_of_lt (by omega)]

theorem ceilDiv_zero (t : Nat) (ht : 0 < t) : ceilDiv 0 t = 0 := by
  unfold ceilDiv
  exact Nat.div_eq_of_lt (by omega)

/-- The rounded-up quotient `q` of `n` by `t` satisfies `(q - 1) * t < n ≤ q * t` for `n > 0`. -/
theorem ceilDiv_bounds (n t : Nat) (ht : 0 < t) :
    n ≤ ceilDiv n t * t ∧ (0 < n → 0 < ceilDiv n t ∧ (ceilDiv n t - 1) * t < n) := by
  unfold ceilDiv
  have h1 := Nat.div_mul_le_self (n + t - 1) t
  have h2 := @Nat.lt_div_mul_add (n + t - 1) t ht
  refine ⟨by omega, fun hn => ?_⟩
  have hq : 0 < (n + t - 1) / t := Nat.div_pos (by omega) ht
  refine ⟨hq, ?_⟩
  have e : ((n + t - 1) / t - 1) * t = (n + t - 1) / t * t - t := by
    rw [Nat.sub_mul, Nat.one_mul]
  omega

theorem ceilDiv_le (n t : Nat) (ht : 0 < t) : ceilDiv n t ≤ n := by
  have h := (ceilDiv_bounds n t ht).2
  by_cases hn : 0 < n
  · obtain ⟨hq, hlt⟩ := h hn
    have hmul : ceilDiv n t - 1 ≤ (ceilDiv n t - 1) * t := Nat.le_mul_of_pos_right _ ht
    omega
  · have : n = 0 := by omega
    subst this
    rw [ceilDiv_zero t ht]

/-- The loop for a positive limit, in closed form: from index `i` it appends
`ceilDiv (len - i) t` batches, the `k`-th being the `t` elements (fewer at the end) from index
`i + k * t` on; one unit of fuel per iteration and one for the last test suffice. -/
theorem batchLoop_closed_form {α : Type} (series : List α) (t : Nat) (ht : 0 < t)
    (htmax : (t : Int) ≤ maxInt) (hlen : series.length ≤ maxSliceLen) :
    ∀ (fuel i : Nat) (batches : List (List α)), (i = 0 ∨ t ≤ i) →
      ceilDiv (series.length - i) t < fuel →
      batchLoop series t fuel i batches = .done (batches ++
        (List.range (ceilDiv (series.length - i) t)).map
          (fun k => (series.drop (i + k * t)).take t)) := by
  intro fuel
  induction fuel with
  | zero => intro i batches _ h; omega
  | succ fuel ih =>
    intro i batches hi hfuel
    by_cases hlt : i < series.length
    · have hstep := ceilDiv_step series.length i t ht hlt
      rw [batchLoop_step series t htmax hlen fuel i batches hi hlt]
      rw [ih (i + t) (batches ++ [(series.drop i).take t]) (Or.inr (by omega)) (by omega)]
      rw [hstep, List.range_succ_eq_map, List.map_cons, List.map_map, List.append_assoc]
      congr 2
      simp only [List.singleton_append, Nat.zero_mul, Nat.add_zero, List.cons.injEq, true_and]
      apply List.map_congr_left
      intro k _
      simp only [Function.comp, Nat.succ_eq_add_one, Nat.add_mul, Nat.one_mul]
      congr 2
      omega
    · have hz : series.length - i = 0 := by omega
      rw [batchLoop_exit series t fuel i batches (by exact_mod_cast (by omega : series.length ≤ i)),
        hz, ceilDiv_zero t ht]
      simp

/-- Function `batchTimeSeries` for a positive limit, in closed form. The fuel needed is the
number of iterations, `ceilDiv len tsLimit`, plus one for the test that ends the loop. -/
theorem batchTimeSeries_closed_form {α : Type} (series : List α) (tsLimit : Int)
    (h0 : 0 < tsLimit) (hmax : tsLimit ≤ maxInt) (hlen : series.length ≤ maxSliceLen)
    (fuel : Nat) (hfuel : ceilDiv series.length tsLimit.toNat < fuel) :
    batchTimeSeries fuel series tsLimit = .done
      ((List.range (ceilDiv series.length tsLimit.toNat)).map
        (fun k => (series.drop (k * tsLimit.toNat)).take tsLimit.toNat)) := by
  obtain ⟨t, rfl⟩ := Int.eq_ofNat_of_zero_le (le_of_lt h0)
  have ht : 0 < t := by exact_mod_cast h0
  simp only [Int.toNat_ofNat] at hfuel ⊢
  have h := batchLoop_closed_form series t ht hmax hlen fuel 0 [] (Or.inl rfl)
    (by simpa using hfuel)
  unfold batchTimeSeries
  simpa using h

/-- The slice `series[k*t : min((k+1)*t, len)]` is the `t` elements, or those left, from index
`k * t` on. -/
theorem sliceRange_batch {α : Type} (series : List α) (k t : Nat) :
    sliceRange series ((k : Int) * (t : Int))
        (min (((k : Int) + 1) * (t : Int)) (series.length : Int)) =
      (series.drop (k * t)).take t := by
  have e0 : (k : Int) * (t : Int) = ((k * t : Nat) : Int) := by push_cast; rfl
  have e1 : ((k : Int) + 1) * (t : Int) = ((k * t + t : Nat) : Int) := by push_cast; ring
  have e2 : min (((k * t + t : Nat) : Int)) (series.length : Int) =
      (if ((k * t + t : Nat) : Int) > (series.length : Int) then (series.length : Int)
        else ((k * t + t : Nat) : Int)) := by
    rw [min_def]
    split <;> split <;> omega
  rw [e1, e2, e0]
  exact sliceRange_nat series (k * t) t

/-- For a positive limit the loop never panics, whatever the fuel. -/
theorem batchLoop_not_panicked {α : Type} (series : List α) (t : Nat)
    (htmax : (t : Int) ≤ maxInt) (hlen : series.length ≤ maxSliceLen) :
    ∀ (fuel i : Nat) (batches : List (List α)), (i = 0 ∨ t ≤ i) →
      batchLoop series t fuel i batches ≠ .panicked := by
  intro fuel
  induction fuel with
  | zero =>
    intro i batches _ h
    cases h
  | succ fuel ih =>
    intro i batches hi
    by_cases hlt : i < series.length
    · rw [batchLoop_step series t htmax hlen fuel i batches hi hlt]
      exact ih (i + t) _ (Or.inr (by omega))
    · rw [batchLoop_exit series t fuel i batches (by exact_mod_cast (by omega : series.length ≤ i))]
      intro h
      cases h

theorem wrapInt_of_int_range (x : Int) (h0 : minInt ≤ x) (h1 : x ≤ maxInt) : wrapInt x = x := by
  unfold wrapInt
  unfold maxInt at h1
  unfold minInt at h0
  omega

/-- For a negative limit the first slice expression of a non-empty series is `series[0:e]`
with `e = tsLimit < 0`, and the loop panics there. -/
theorem batchLoop_negative_limit {α : Type} (series : List α) (tsLimit : Int)
    (hneg : tsLimit < 0) (hmin : minInt ≤ tsLimit) (hne : series ≠ []) (fuel : Nat)
    (batches : List (List α)) :
    batchLoop series tsLimit (fuel + 1) 0 batches = .panicked := by
  have hpos : (0 : Int) < (series.length : Int) := by
    have := List.length_pos.2 hne
    exact_mod_cast this
  have hw : wrapInt (0 + tsLimit) = tsLimit := by
    rw [Int.zero_add]
    exact wrapInt_of_int_range tsLimit hmin (by unfold maxInt; omega)
  rw [batchLoop]
  simp only [hpos, if_true, hw]
  have hgt : ¬ (tsLimit > (series.length : Int)) := by omega
  simp only [hgt, if_false]
  rw [if_neg (by omega)]

/-- One iteration of the loop for a limit of zero on a non-empty series: the index is `0`
again and one empty batch has been appended. -/
theorem batchLoop_zero_limit_step {α : Type} (series : List α) (hne : series ≠ []) (fuel : Nat)
    (batches : List (List α)) :
    batchLoop series 0 (fuel + 1) 0 batches = batchLoop series 0 fuel 0 (batches ++ [[]]) := by
  have hpos : (0 : Int) < (series.length : Int) := by
    have := List.length_pos.2 hne
    exact_mod_cast this
  have hw : wrapInt (0 + 0) = 0 := by decide
  rw [batchLoop]
  simp only [hpos, if_true, hw]
  have hgt : ¬ ((0 : Int) > (series.length : Int)) := by omega
  simp only [hgt, if_false]
  rw [if_pos ⟨le_refl _, le_refl _, le_of_lt hpos⟩]
  rfl

/-! ## The slice expressions of the loop -/

/-- Whenever the loop returns, its batches are the slices at the recorded index pairs, in
order: `sliceIndices` records the slice expressions of the very run of `batchLoop`. -/
theorem batchLoop_eq_map_sliceIndices {α : Type} (series : List α) (tsLimit : Int) :
    ∀ (fuel : Nat) (i : Int) (batches r : List (List α)),
      batchLoop series tsLimit fuel i batches = .done r →
      r = batches ++ (sliceIndices series tsLimit fuel i).map
        (fun p => sliceRange series p.1 p.2) := by
  intro fuel
  induction fuel with
  | zero =>
    intro i batches r h
    cases h
  | succ fuel ih =>
    intro i batches r h
    rw [batchLoop] at h
    rw [sliceIndices]
    by_cases hlt : i < (series.length : Int)
    · simp only [hlt, if_true] at h ⊢
      generalize (if wrapInt (i + tsLimit) > (series.length : Int) then (series.length : Int)
        else wrapInt (i + tsLimit)) = e at h ⊢
      by_cases hchk : 0 ≤ i ∧ i ≤ e ∧ e ≤ (series.length : Int)
      · rw [if_pos hchk] at h ⊢
        rw [ih _ _ _ h]
        simp
      · rw [if_neg hchk] at h
        cases h
    · simp only [hlt, if_false, Run.done.injEq] at h ⊢
      rw [← h]
      simp

/-- One recorded slice expression for a positive limit, on natural-number indices. -/
theorem sliceIndices_step {α : Type} (series : List α) (t : Nat)
    (htmax : (t : Int) ≤ maxInt) (hlen : series.length ≤ maxSliceLen)
    (fuel i : Nat) (hi : i = 0 ∨ t ≤ i) (hlt : i < series.length) :
    sliceIndices series t (fuel + 1) i =
      ((i : Int), (if ((i + t : Nat) : Int) > (series.length : Int) then (series.length : Int)
        else ((i + t : Nat) : Int))) :: sliceIndices series t fuel ((i + t : Nat) : Int) := by
  have hw : wrapInt ((i : Int) + (t : Int)) = ((i + t : Nat) : Int) := by
    rw [wrapInt_of_range]
    · push_cast; rfl
    · omega
    · unfold maxInt at *
      unfold maxSliceLen at hlen
      omega
  have hlt2 : (i : Int) < (series.length : Int) := by exact_mod_cast hlt
  rw [sliceIndices]
  simp only [hlt2, if_true, hw]
  have hle : (0 : Int) ≤ (i : Int) ∧ (i : Int) ≤
      (if ((i + t : Nat) : Int) > (series.length : Int) then (series.length : Int)
        else ((i + t : Nat) : Int)) ∧
      (if ((i + t : Nat) : Int) > (series.length : Int) then (series.length : Int)
        else ((i + t : Nat) : Int)) ≤ (series.length : Int) := by
    refine ⟨by omega, ?_, ?_⟩
    · split <;> omega
    · split <;> omega
  rw [if_pos hle]

/-- For a positive limit every recorded slice expression `series[i:e]` has
`0 ≤ i < e ≤ len(series)`, whatever the fuel. -/
theorem sliceIndices_in_bounds {α : Type} (series : List α) (t : Nat) (ht : 0 < t)
    (htmax : (t : Int) ≤ maxInt) (hlen : series.length ≤ maxSliceLen) :
    ∀ (fuel i : Nat), (i = 0 ∨ t ≤ i) →
      ∀ p ∈ sliceIndices series t fuel i,
        0 ≤ p.1 ∧ p.1 < p.2 ∧ p.2 ≤ (series.length : Int) := by
  intro fuel
  induction fuel with
  | zero =>
    intro i _ p hp
    simp [sliceIndices] at hp
  | succ fuel ih =>
    intro i hi p hp
    by_cases hlt : i < series.length
    · rw [sliceIndices_step series t htmax hlen fuel i hi hlt] at hp
      rcases List.mem_cons.1 hp with rfl | hp
      · refine ⟨by simp, ?_, ?_⟩
        · simp only
          split <;> omega
        · simp only
          split <;> omega
      · exact ih (i + t) (Or.inr (by omega)) p hp
    · have hge : ¬ ((i : Int) < (series.length : Int)) := by omega
      rw [sliceIndices, if_neg hge] at hp
      cases hp

/-- For a negative limit and a non-empty series the only slice expression evaluated is
`series[0:tsLimit]`. -/
theorem sliceIndices_negative_limit {α : Type} (series : List α) (tsLimit : Int)
    (hneg : tsLimit < 0) (hmin : minInt ≤ tsLimit) (hne : series ≠ []) (fuel : Nat) :
    sliceIndices series tsLimit (fuel + 1) 0 = [(0, tsLimit)] := by
  have hpos : (0 : Int) < (series.length : Int) := by
    have := List.length_pos.2 hne
    exact_mod_cast this
  have hw : wrapInt (0 + tsLimit) = tsLimit := by
    rw [Int.zero_add]
    exact wrapInt_of_int_range tsLimit hmin (by unfold maxInt; omega)
  rw [sliceIndices]
  simp only [hpos, if_true, hw]
  have hgt : ¬ (tsLimit > (series.length : Int)) := by omega
  simp only [hgt, if_false]
  rw [if_neg (by omega)]

/-! ## The events of a flush cycle -/

theorem pushResults_length {α : Type} (b : buffered α) :
    ∀ (batches : List (List α)) (tr : List (Event α)),
      (pushResults b batches tr).length = batches.length := by
  intro batches
  induction batches with
  | nil => intro tr; rfl
  | cons ts rest ih =>
    intro tr
    simp only [pushResults, List.length_cons, ih]

/-- The loop of `Send` adds to the trace, for each batch in order, the push of that batch and
then one log entry made from the result of that push. -/
theorem pushLoop_events {α : Type} (b : buffered α) :
    ∀ (batches : List (List α)) (tr : List (Event α)),
      pushLoop b batches tr = tr ++ loopEvents b batches (pushResults b batches tr) := by
  intro batches
  induction batches with
  | nil => intro tr; simp [pushLoop, loopEvents]
  | cons ts rest ih =>
    intro tr
    have hstep : pushLoop b (ts :: rest) tr =
        pushLoop b rest (tr ++ batchEvents b ts (b.pushMetrics tr (requestFor b ts))) := by
      rw [pushLoop]
      simp only [requestFor, batchEvents, batchLogEntry]
      cases b.pushMetrics tr { Name := "projects/" ++ b.project, TimeSeries := ts } <;> simp
    rw [hstep, ih]
    simp [pushResults, loopEvents, List.flatMap_cons]

theorem lock_not_mem_loopEvents {α : Type} (b : buffered α) (batches : List (List α))
    (errs : List (Option Error)) :
    Event.lock ∉ loopEvents b batches errs ∧ Event.unlock ∉ loopEvents b batches errs := by
  simp [loopEvents, batchEvents, List.mem_flatMap]

theorem logEntries_loopEvents {α : Type} (b : buffered α) :
    ∀ (batches : List (List α)) (errs : List (Option Error)),
      logEntries (loopEvents b batches errs) =
        (batches.zip errs).map (fun p => batchLogEntry p.1 p.2) := by
  intro batches
  induction batches with
  | nil => intro errs; simp [loopEvents, logEntries]
  | cons ts rest ih =>
    intro errs
    cases errs with
    | nil => simp [loopEvents, logEntries]
    | cons err errs =>
      have h := ih errs
      simp only [loopEvents, List.zip_cons_cons, List.flatMap_cons, logEntries_append,
        List.map_cons] at h ⊢
      rw [h]
      simp [batchEvents, logEntries]

/-- Every way a `Send` can return: on an empty buffer with the no-data trace, on a non-empty
buffer after the split returned its batches and the loop pushed them. -/
theorem Send_done_cases {α : Type} (merge : mergeFunc α) (fuel : Nat) (b b2 : buffered α)
    (tr tr2 : List (Event α)) (h : Send merge fuel b tr = .done (b2, tr2)) :
    b2 = { b with buffer := [] } ∧
    ((b.buffer = [] ∧ tr2 = tr ++ [Event.lock] ++ [Event.unlock] ++
        [Event.log ⟨Level.debug, "No data to send to Stackdriver.", []⟩]) ∨
      (b.buffer ≠ [] ∧ ∃ batches,
        batchTimeSeries fuel (merge b.buffer).1 b.timeSeriesBatchSize = .done batches ∧
        tr2 = pushLoop { b with buffer := [] } batches (drainedTrace merge b tr))) := by
  refine ⟨Send_done_fields merge fuel b b2 tr tr2 h, ?_⟩
  by_cases hbuf : b.buffer = []
  · left
    rw [Send_empty merge fuel b tr hbuf] at h
    simp only [Run.done.injEq, Prod.mk.injEq] at h
    exact ⟨hbuf, h.2.symm⟩
  · right
    rw [Send_nonempty merge fuel b tr hbuf] at h
    cases hrun : batchTimeSeries fuel (merge b.buffer).1 b.timeSeriesBatchSize with
    | done batches =>
      rw [hrun] at h
      simp only [Run.map, Run.done.injEq, Prod.mk.injEq] at h
      exact ⟨hbuf, batches, rfl, h.2.symm⟩
    | panicked => rw [hrun] at h; cases h
    | outOfFuel => rw [hrun] at h; cases h

/-- The push requests of a `Send` that returns are `"projects/" ++ project` requests, and it
closes nothing. -/
theorem Send_done_requests {α : Type} (merge : mergeFunc α) (fuel : Nat) (b b2 : buffered α)
    (tr tr2 : List (Event α)) (h : Send merge fuel b tr = .done (b2, tr2)) :
    ∃ batches, pushRequests tr2 = pushRequests tr ++ batches.map (requestFor b) ∧
      closeCalls tr2 = closeCalls tr ∧ (b.buffer = [] → batches = []) := by
  obtain ⟨_, hcase⟩ := Send_done_cases merge fuel b b2 tr tr2 h
  rcases hcase with ⟨hbuf, rfl⟩ | ⟨hbuf, batches, _, rfl⟩
  · refine ⟨[], ?_, ?_, fun _ => rfl⟩
    · simp [pushRequests]
    · simp [closeCalls]
  · refine ⟨batches, ?_, ?_, fun h => absurd h hbuf⟩
    · rw [pushRequests_drained]
      rfl
    · rw [closeCalls_pushLoop]
      simp [drainedTrace, closeCalls]

/-- A `Close` on an empty buffer: the log line, the empty flush, then the close call. -/
theorem Close_empty {α : Type} (merge : mergeFunc α) (fuel : Nat) (b : buffered α)
    (tr : List (Event α)) (h : b.buffer = []) :
    ∃ tr1, Close merge fuel b tr =
        .done (b, tr1 ++ [Event.close (b.closeMe tr1)], b.closeMe tr1) ∧
      pushRequests tr1 = pushRequests tr ∧ closeCalls tr1 = closeCalls tr := by
  refine ⟨_, (Close_done_iff merge fuel b tr _ _ _).2
    ⟨_, Send_empty merge fuel b _ h, rfl, rfl⟩, ?_, ?_⟩
  · simp [pushRequests]
  · simp [closeCalls]

/-- Once the buffer is drained, any further `Send` and `Close` calls push nothing. -/
theorem runOps_drained {α : Type} (merge : mergeFunc α) (fuel : Nat) :
    ∀ (ops : List (Op α)) (b : buffered α) (tr : List (Event α)), b.buffer = [] →
      (∀ op ∈ ops, op = Op.send ∨ op = Op.close) →
      ∃ tr2, runOps merge fuel ops b tr = .done (b, tr2) ∧
        pushRequests tr2 = pushRequests tr := by
  intro ops
  induction ops with
  | nil => intro b tr _ _; exact ⟨tr, rfl, rfl⟩
  | cons op ops ih =>
    intro b tr hbuf hops
    have hrest : ∀ op2 ∈ ops, op2 = Op.send ∨ op2 = Op.close :=
      fun op2 h2 => hops op2 (List.mem_cons_of_mem _ h2)
    rcases hops op (List.mem_cons_self _ _) with rfl | rfl
    · obtain ⟨tr2, hrun, hpush⟩ := ih b _ hbuf hrest
      refine ⟨tr2, ?_, ?_⟩
      · rw [runOps, Send_empty merge fuel b tr hbuf]
        exact hrun
      · rw [hpush]
        simp [pushRequests]
    · obtain ⟨tr1, hclose, hp1, _⟩ := Close_empty merge fuel b tr hbuf
      obtain ⟨tr2, hrun, hpush⟩ := ih b (tr1 ++ [Event.close (b.closeMe tr1)]) hbuf hrest
      refine ⟨tr2, ?_, ?_⟩
      · rw [runOps, hclose]
        exact hrun
      · rw [hpush, pushRequests_append, hp1]
        simp [pushRequests]

/-- In a run of operations that returns, `closeMe.Close` has been called once per `Close`. -/
theorem runOps_closeCalls {α : Type} (merge : mergeFunc α) (fuel : Nat) :
    ∀ (ops : List (Op α)) (b b2 : buffered α) (tr tr2 : List (Event α)),
      runOps merge fuel ops b tr = .done (b2, tr2) →
      (closeCalls tr2).length = (closeCalls tr).length + closeOps ops := by
  intro ops
  induction ops with
  | nil =>
    intro b b2 tr tr2 h
    simp only [runOps, Run.done.injEq, Prod.mk.injEq] at h
    rw [← h.2]
    rfl
  | cons op ops ih =>
    intro b b2 tr tr2 h
    cases op with
    | record toSend =>
      rw [runOps] at h
      rw [ih _ _ _ _ h]
      simp [Record, closeCalls, closeOps]
    | send =>
      rw [runOps] at h
      cases hS : Send merge fuel b tr with
      | done r =>
        obtain ⟨bS, trS⟩ := r
        rw [hS] at h
        obtain ⟨_, _, hcc, _⟩ := Send_done_requests merge fuel b bS tr trS hS
        rw [ih _ _ _ _ h, hcc]
        rfl
      | panicked => rw [hS] at h; cases h
      | outOfFuel => rw [hS] at h; cases h
    | close =>
      rw [runOps] at h
      cases hC : Close merge fuel b tr with
      | done r =>
        obtain ⟨bC, trC, err⟩ := r
        rw [hC] at h
        obtain ⟨tr1, hS, rfl, _⟩ := (Close_done_iff merge fuel b tr bC trC err).1 hC
        obtain ⟨_, _, hcc, _⟩ := Send_done_requests merge fuel b bC _ tr1 hS
        rw [ih _ _ _ _ h, closeCalls_append, hcc]
        simp [closeCalls, closeOps]
        omega
      | panicked => rw [hC] at h; cases h
      | outOfFuel => rw [hC] at h; cases h

/-- A run of operations returns when the batch size is positive, the merge never lengthens its
input, and the fuel exceeds the number of points ever held. -/
theorem runOps_returns {α : Type} (merge : mergeFunc α)
    (hshort : ∀ xs, (merge xs).1.length ≤ xs.length) (fuel : Nat) :
    ∀ (ops : List (Op α)) (b : buffered α) (tr : List (Event α)),
      0 < b.timeSeriesBatchSize → b.timeSeriesBatchSize ≤ maxInt →
      b.buffer.length + (recorded ops).length ≤ maxSliceLen →
      b.buffer.length + (recorded ops).length < fuel →
      ∃ b2 tr2, runOps merge fuel ops b tr = .done (b2, tr2) := by
  intro ops
  induction ops with
  | nil => intro b tr _ _ _ _; exact ⟨b, tr, rfl⟩
  | cons op ops ih =>
    intro b tr h0 hmax hlen hfuel
    have hm := hshort b.buffer
    cases op with
    | record toSend =>
      simp only [recorded, List.length_append] at hlen hfuel
      obtain ⟨b2, tr2, hrun⟩ := ih (Record b toSend tr).1 (Record b toSend tr).2 h0 hmax
        (by simp only [Record, List.length_append]; omega)
        (by simp only [Record, List.length_append]; omega)
      exact ⟨b2, tr2, by rw [runOps]; exact hrun⟩
    | send =>
      simp only [recorded] at hlen hfuel
      obtain ⟨_, tr1, hsend, _⟩ := Send_returns merge b tr h0 hmax (by omega) fuel (by omega)
      obtain ⟨b2, tr2, hrun⟩ := ih { b with buffer := [] } tr1 h0 hmax
        (by simp only [List.length_nil]; omega) (by simp only [List.length_nil]; omega)
      exact ⟨b2, tr2, by rw [runOps, hsend]; exact hrun⟩
    | close =>
      simp only [recorded] at hlen hfuel
      obtain ⟨_, tr1, hsend, _⟩ := Send_returns merge b
        (tr ++ [Event.log ⟨Level.info, "Sending last data before shutting down", []⟩])
        h0 hmax (by omega) fuel (by omega)
      obtain ⟨b2, tr2, hrun⟩ := ih { b with buffer := [] }
        (tr1 ++ [Event.close (b.closeMe tr1)]) h0 hmax
        (by simp only [List.length_nil]; omega) (by simp only [List.length_nil]; omega)
      have hclose : Close merge fuel b tr = .done ({ b with buffer := [] },
          tr1 ++ [Event.close (b.closeMe tr1)], b.closeMe tr1) :=
        (Close_done_iff merge fuel b tr _ _ _).2 ⟨tr1, hsend, rfl, rfl⟩
      exact ⟨b2, tr2, by rw [runOps, hclose]; exact hrun⟩

/-- With an empty buffer a `Send`, a `Close`, and any sequence of them push nothing and leave
the state as it is. -/
theorem drained_pushes_nothing {α : Type} (merge : mergeFunc α) (b : buffered α)
    (tr : List (Event α)) (h : b.buffer = []) :
    (∀ fuel, ∃ tr2, Send merge fuel b tr = .done (b, tr2) ∧
      pushRequests tr2 = pushRequests tr) ∧
    (∀ fuel, ∃ tr2 err, Close merge fuel b tr = .done (b, tr2, err) ∧
      pushRequests tr2 = pushRequests tr) ∧
    (∀ ops : List (Op α), (∀ op ∈ ops, op = Op.send ∨ op = Op.close) →
      ∀ fuel, ∃ tr2, runOps merge fuel ops b tr = .done (b, tr2) ∧
        pushRequests tr2 = pushRequests tr) := by
  refine ⟨fun fuel => ?_, fun fuel => ?_, fun ops hops fuel =>
    runOps_drained merge fuel ops b tr h hops⟩
  · exact ⟨_, Send_empty merge fuel b tr h, by simp [pushRequests]⟩
  · obtain ⟨tr1, hclose, hp, _⟩ := Close_empty merge fuel b tr h
    exact ⟨_, _, hclose, by rw [pushRequests_append, hp]; simp [pushRequests]⟩

/-- The error-level entries among the per-batch log entries are those of the failed pushes. -/
theorem countP_error_batchLogEntry {α : Type} :
    ∀ (batches : List (List α)) (errs : List (Option Error)),
      ((batches.zip errs).map (fun p => batchLogEntry p.1 p.2)).countP
          (fun entry => decide (entry.level = Level.error)) =
        ((batches.zip errs).map (fun p => p.2)).countP (fun err => err.isSome) := by
  intro batches
  induction batches with
  | nil => intro errs; simp
  | cons ts rest ih =>
    intro errs
    cases errs with
    | nil => simp
    | cons err errs =>
      have h := ih errs
      simp only [List.zip_cons_cons, List.map_cons, List.countP_cons, h]
      cases err <;> simp [batchLogEntry]

theorem map_snd_zip_of_length_eq {α β : Type} :
    ∀ (xs : List α) (ys : List β), ys.length = xs.length →
      (xs.zip ys).map (fun p => p.2) = ys := by
  intro xs
  induction xs with
  | nil =>
    intro ys h
    cases ys with
    | nil => rfl
    | cons y ys => cases h
  | cons x xs ih =>
    intro ys h
    cases ys with
    | nil => cases h
    | cons y ys =>
      simp only [List.length_cons, Nat.add_right_cancel_iff] at h
      simp [ih ys h]

/-! ## Traces of runs that may not return -/

/-- The events of a `Send` that returns are the trace it returns. -/
theorem SendTrace_of_done {α : Type} (merge : mergeFunc α) (fuel : Nat) (b b2 : buffered α)
    (tr tr2 : List (Event α)) (h : Send merge fuel b tr = .done (b2, tr2)) :
    SendTrace merge fuel b tr = tr2 := by
  unfold Send at h
  unfold SendTrace
  by_cases hbuf : b.buffer.length = 0
  · simp only [hbuf, if_true, Run.done.injEq, Prod.mk.injEq] at h ⊢
    exact h.2
  · simp only [hbuf, if_false] at h ⊢
    cases hrun : batchTimeSeries fuel (merge b.buffer).1 b.timeSeriesBatchSize with
    | done batches =>
      rw [hrun] at h
      simp only [Run.done.injEq, Prod.mk.injEq] at h
      exact h.2
    | panicked => rw [hrun] at h; cases h
    | outOfFuel => rw [hrun] at h; cases h

/-- A `Send` never calls `closeMe.Close`, whether it returns or not. -/
theorem closeCalls_SendTrace {α : Type} (merge : mergeFunc α) (fuel : Nat) (b : buffered α)
    (tr : List (Event α)) : closeCalls (SendTrace merge fuel b tr) = closeCalls tr := by
  unfold SendTrace
  by_cases hbuf : b.buffer.length = 0
  · simp [hbuf, closeCalls]
  · simp only [hbuf, if_false]
    cases batchTimeSeries fuel (merge b.buffer).1 b.timeSeriesBatchSize with
    | done batches =>
      simp only []
      rw [closeCalls_pushLoop]
      simp [closeCalls]
    | panicked => simp [closeCalls]
    | outOfFuel => simp [closeCalls]

/-- The events of a `Close` that returns are the trace it returns. -/
theorem CloseTrace_of_done {α : Type} (merge : mergeFunc α) (fuel : Nat) (b b2 : buffered α)
    (tr tr2 : List (Event α)) (err : Option Error)
    (h : Close merge fuel b tr = .done (b2, tr2, err)) :
    CloseTrace merge fuel b tr = tr2 := by
  obtain ⟨tr1, hS, rfl, _⟩ := (Close_done_iff merge fuel b tr b2 tr2 err).1 h
  unfold CloseTrace
  simp only []
  rw [hS]

/-- A `Close` calls `closeMe.Close` at most once, whether it returns or not. -/
theorem closeCalls_CloseTrace_le {α : Type} (merge : mergeFunc α) (fuel : Nat) (b : buffered α)
    (tr : List (Event α)) :
    (closeCalls (CloseTrace merge fuel b tr)).length ≤ (closeCalls tr).length + 1 := by
  unfold CloseTrace
  simp only []
  cases hS : Send merge fuel b
      (tr ++ [Event.log ⟨Level.info, "Sending last data before shutting down", []⟩]) with
  | done r =>
    obtain ⟨bS, trS⟩ := r
    obtain ⟨_, _, hcc, _⟩ := Send_done_requests merge fuel b bS _ trS hS
    simp only [closeCalls_append, hcc]
    simp [closeCalls]
  | panicked =>
    simp only [closeCalls_SendTrace, closeCalls_append]
    simp [closeCalls]
  | outOfFuel =>
    simp only [closeCalls_SendTrace, closeCalls_append]
    simp [closeCalls]

/-- The events of a run of operations that returns are the trace it returns. -/
theorem runOpsTrace_of_done {α : Type} (merge : mergeFunc α) (fuel : Nat) :
    ∀ (ops : List (Op α)) (b b2 : buffered α) (tr tr2 : List (Event α)),
      runOps merge fuel ops b tr = .done (b2, tr2) → runOpsTrace merge fuel ops b tr = tr2 := by
  intro ops
  induction ops with
  | nil =>
    intro b b2 tr tr2 h
    simp only [runOps, Run.done.injEq, Prod.mk.injEq] at h
    exact h.2
  | cons op ops ih =>
    intro b b2 tr tr2 h
    cases op with
    | record toSend =>
      rw [runOps] at h
      rw [runOpsTrace]
      exact ih _ _ _ _ h
    | send =>
      rw [runOps] at h
      rw [runOpsTrace]
      cases hS : Send merge fuel b tr with
      | done r =>
        obtain ⟨bS, trS⟩ := r
        rw [hS] at h
        exact ih _ _ _ _ h
      | panicked => rw [hS] at h; cases h
      | outOfFuel => rw [hS] at h; cases h
    | close =>
      rw [runOps] at h
      rw [runOpsTrace]
      cases hC : Close merge fuel b tr with
      | done r =>
        obtain ⟨bC, trC, err⟩ := r
        rw [hC] at h
        exact ih _ _ _ _ h
      | panicked => rw [hC] at h; cases h
      | outOfFuel => rw [hC] at h; cases h

/-- In every run of operations, returning or not, `closeMe.Close` has been called at most once
per `Close` operation. -/
theorem closeCalls_runOpsTrace_le {α : Type} (merge : mergeFunc α) (fuel : Nat) :
    ∀ (ops : List (Op α)) (b : buffered α) (tr : List (Event α)),
      (closeCalls (runOpsTrace merge fuel ops b tr)).length ≤
        (closeCalls tr).length + closeOps ops := by
  intro ops
  induction ops with
  | nil =>
    intro b tr
    simp [runOpsTrace, closeOps]
  | cons op ops ih =>
    intro b tr
    cases op with
    | record toSend =>
      rw [runOpsTrace]
      have h := ih (Record b toSend tr).1 (Record b toSend tr).2
      have hrec : closeCalls (Record b toSend tr).2 = closeCalls tr := by
        simp [Record, closeCalls]
      rw [hrec] at h
      simpa [closeOps] using h
    | send =>
      rw [runOpsTrace]
      cases hS : Send merge fuel b tr with
      | done r =>
        obtain ⟨bS, trS⟩ := r
        obtain ⟨_, _, hcc, _⟩ := Send_done_requests merge fuel b bS tr trS hS
        have h := ih bS trS
        rw [hcc] at h
        simpa [closeOps] using h
      | panicked =>
        simp only [closeCalls_SendTrace]
        omega
      | outOfFuel =>
        simp only [closeCalls_SendTrace]
        omega
    | close =>
      rw [runOpsTrace]
      have hle := closeCalls_CloseTrace_le merge fuel b tr
      cases hC : Close merge fuel b tr with
      | done r =>
        obtain ⟨bC, trC, err⟩ := r
        have htr := CloseTrace_of_done merge fuel b bC tr trC err hC
        rw [htr] at hle
        have h := ih bC trC
        simp only [closeOps]
        omega
      | panicked =>
        simp only [closeOps]
        omega
      | outOfFuel =>
        simp only [closeOps]
        omega

/-! ## Runs on concrete inputs -/

theorem batchTimeSeries_run_limit_two :
    batchTimeSeries 4 [1, 2, 3] 2 = .done [[1, 2], [3]] := by decide

theorem batchTimeSeries_run_negative_limit :
    batchTimeSeries 4 [1, 2, 3] (-1) = .panicked := by decide

theorem batchTimeSeries_run_maxInt_limit :
    batchTimeSeries 4 [1, 2, 3] maxInt = .done [[1, 2, 3]] := by decide

/-- The flush of a buffer of five points with batch size 2, an identity merge and a backend that
rejects the second push: the whole trace. -/
theorem Send_run_second_push_fails :
    (Send (fun xs => (xs, [])) 4
      ⟨"p", fun tr _ => if (pushRequests tr).length = 1 then some ⟨"unavailable"⟩ else none,
        fun _ => none, ["A", "B", "C", "D", "E"], 2⟩ []).map (fun r => (r.1.buffer, r.2)) =
    .done ([], [Event.lock, Event.unlock, Event.mergeCall ["A", "B", "C", "D", "E"],
      Event.push ⟨"projects/p", ["A", "B"]⟩ none,
      Event.log ⟨Level.debug, "Successfully sent data to Stackdriver.", []⟩,
      Event.push ⟨"projects/p", ["C", "D"]⟩ (some ⟨"unavailable"⟩),
      Event.log ⟨Level.error, "Stackdriver returned: %v\nGiven data: %v",
        [LogArg.err ⟨"unavailable"⟩, LogArg.series ["C", "D"]]⟩,
      Event.push ⟨"projects/p", ["E"]⟩ none,
      Event.log ⟨Level.debug, "Successfully sent data to Stackdriver.", []⟩]) := by
  decide

/-- The events of a `Close` on the buffer `[1]` with batch size 0: the log line, the drain and
the merge call, and then nothing more, as the split never leaves its loop. -/
theorem CloseTrace_run_zero_batch_size :
    CloseTrace (fun xs => (xs, [])) 5 ⟨"p", fun _ _ => none, fun _ => none, [1], 0⟩ [] =
      [Event.log ⟨Level.info, "Sending last data before shutting down", []⟩,
        Event.lock, Event.unlock, Event.mergeCall [1]] := by
  decide

/-- Without the clamp the second slice expression of `([1, 2, 3], 2)` would be `series[2:4]`,
past the end of the series. -/
theorem unclamped_end_exceeds_length : wrapInt (2 + 2) > (([1, 2, 3] : List Nat).length : Int) := by
  decide

/-! ## Claims about batchTimeSeries -/

/-- C1: for every series (of a length a Go slice can have) and every limit `tsLimit > 0` of
type `int`, `batchTimeSeries` returns and the concatenation of the returned batches, in order,
is the series itself. -/
theorem batchTimeSeries_concat {α : Type} (series : List α) (tsLimit : Int)
    (h0 : 0 < tsLimit) (hmax : tsLimit ≤ maxInt) (hlen : series.length ≤ maxSliceLen)
    (fuel : Nat) (hfuel : series.length < fuel) :
    ∃ batches, batchTimeSeries fuel series tsLimit = .done batches ∧
      batches.flatten = series := by
  obtain ⟨batches, hrun, hjoin, _, _⟩ :=
    batchTimeSeries_done series tsLimit h0 hmax hlen fuel hfuel
  exact ⟨batches, hrun, hjoin⟩

theorem batchTimeSeries_concat_witness :
    ∃ batches, batchTimeSeries 4 [10, 20, 30] 2 = .done batches ∧
      batches.flatten = [10, 20, 30] :=
  batchTimeSeries_concat [10, 20, 30] 2 (by decide) (by decide) (by decide) 4 (by decide)

/-- C2: for every series (of a length a Go slice can have) and every limit `tsLimit > 0` of
type `int`, `batchTimeSeries` returns and every returned batch has at most `tsLimit`
elements. -/
theorem batchTimeSeries_batch_le {α : Type} (series : List α) (tsLimit : Int)
    (h0 : 0 < tsLimit) (hmax : tsLimit ≤ maxInt) (hlen : series.length ≤ maxSliceLen)
    (fuel : Nat) (hfuel : series.length < fuel) :
    ∃ batches, batchTimeSeries fuel series tsLimit = .done batches ∧
      ∀ x ∈ batches, (x.length : Int) ≤ tsLimit := by
  obtain ⟨batches, hrun, _, hsize, _⟩ :=
    batchTimeSeries_done series tsLimit h0 hmax hlen fuel hfuel
  exact ⟨batches, hrun, hsize⟩

theorem batchTimeSeries_batch_le_witness :
    ∃ batches, batchTimeSeries 6 [1, 2, 3, 4, 5] 2 = .done batches ∧
      ∀ x ∈ batches, (x.length : Int) ≤ 2 :=
  batchTimeSeries_batch_le [1, 2, 3, 4, 5] 2 (by decide) (by decide) (by decide) 6 (by decide)

/-- C3: for the empty series and every limit, `batchTimeSeries` returns zero batches: the
result has length 0 and is not the list holding one empty batch. -/
theorem batchTimeSeries_empty {α : Type} (tsLimit : Int) (fuel : Nat) :
    ∃ batches, batchTimeSeries (fuel + 1) ([] : List α) tsLimit = .done batches ∧
      batches.length = 0 ∧ batches ≠ [[]] := by
  refine ⟨[], ?_, rfl, ?_⟩
  · unfold batchTimeSeries
    exact batchLoop_exit [] tsLimit fuel 0 [] (by simp)
  · intro hc
    cases hc

/-! ## Claims about Send -/

/-- C4: for every state with a non-empty buffer and `timeSeriesBatchSize > 0`, every merge
function and every push function, `Send` returns, makes exactly one push call per batch of
`batchTimeSeries(merge(buffer), timeSeriesBatchSize)`, in batch order, each call carrying that
batch as its `TimeSeries`, and leaves the buffer empty. -/
theorem Send_pushes_each_batch {α : Type} (merge : mergeFunc α) (b : buffered α)
    (tr : List (Event α)) (hbuf : b.buffer ≠ []) (h0 : 0 < b.timeSeriesBatchSize)
    (hmax : b.timeSeriesBatchSize ≤ maxInt) (hlen : (merge b.buffer).1.length ≤ maxSliceLen)
    (fuel : Nat) (hfuel : (merge b.buffer).1.length < fuel) :
    ∃ batches b2 tr2,
      batchTimeSeries fuel (merge b.buffer).1 b.timeSeriesBatchSize = .done batches ∧
      Send merge fuel b tr = .done (b2, tr2) ∧
      pushRequests tr2 = pushRequests tr ++
        batches.map (fun ts => { Name := "projects/" ++ b.project, TimeSeries := ts }) ∧
      b2.buffer = [] ∧ b2.buffer.length = 0 := by
  obtain ⟨batches, hrun, _, _, _⟩ :=
    batchTimeSeries_done (merge b.buffer).1 b.timeSeriesBatchSize h0 hmax hlen fuel hfuel
  exact ⟨batches, _, _, hrun, Send_nonempty_done merge fuel b tr hbuf batches hrun,
    pushRequests_drained merge b _ tr batches, rfl, rfl⟩

theorem Send_pushes_each_batch_witness :
    ∃ b2 tr2,
      Send (fun xs => (xs, [])) 4
        ⟨"p", fun _ _ => none, fun _ => none, ["A", "B", "C"], 2⟩ [] = .done (b2, tr2) ∧
      pushRequests tr2 = [⟨"projects/p", ["A", "B"]⟩, ⟨"projects/p", ["C"]⟩] ∧
      b2.buffer = [] := by
  obtain ⟨batches, b2, tr2, hbatch, hsend, hpush, hempty, _⟩ :=
    Send_pushes_each_batch (fun xs => (xs, []))
      ⟨"p", fun _ _ => none, fun _ => none, ["A", "B", "C"], 2⟩ []
      (by decide) (by decide) (by decide) (by decide) 4 (by decide)
  have hb : batches = [["A", "B"], ["C"]] := by
    have h2 : batchTimeSeries 4 ["A", "B", "C"] 2 = .done [["A", "B"], ["C"]] := by decide
    rw [h2] at hbatch
    cases hbatch
    rfl
  subst hb
  exact ⟨b2, tr2, hsend, by simpa using hpush, hempty⟩

/-- C5: the push requests of a `Send` do not depend on which push calls fail. For every state
and every two push functions the two runs end the same way with the same requests in the same
order and the same buffer; and whenever the split of the merged data returns, every batch is
pushed exactly once, in order, whatever the push function answers. -/
theorem Send_failure_isolation {α : Type} (merge : mergeFunc α) (fuel : Nat) (b : buffered α)
    (tr : List (Event α))
    (p1 p2 : List (Event α) → CreateTimeSeriesRequest α → Option Error) :
    (Send merge fuel { b with pushMetrics := p1 } tr).map
        (fun r => (r.1.buffer, pushRequests r.2)) =
      (Send merge fuel { b with pushMetrics := p2 } tr).map
        (fun r => (r.1.buffer, pushRequests r.2)) ∧
    (∀ batches, b.buffer ≠ [] →
      batchTimeSeries fuel (merge b.buffer).1 b.timeSeriesBatchSize = .done batches →
      ∃ b2 tr2, Send merge fuel { b with pushMetrics := p1 } tr = .done (b2, tr2) ∧
        pushRequests tr2 = pushRequests tr ++
          batches.map (fun ts => { Name := "projects/" ++ b.project, TimeSeries := ts })) := by
  constructor
  · by_cases hbuf : b.buffer = []
    · rw [Send_empty merge fuel _ tr (by simpa using hbuf),
        Send_empty merge fuel _ tr (by simpa using hbuf)]
      simp [Run.map, pushRequests]
    · rw [Send_nonempty merge fuel _ tr (by simpa using hbuf),
        Send_nonempty merge fuel _ tr (by simpa using hbuf)]
      simp only []
      cases batchTimeSeries fuel (merge b.buffer).1 b.timeSeriesBatchSize with
      | done batches =>
        simp only [Run.map]
        rw [pushRequests_pushLoop, pushRequests_pushLoop]
        simp [drainedTrace, requestFor]
      | panicked => rfl
      | outOfFuel => rfl
  · intro batches hbuf hrun
    exact ⟨_, _, Send_nonempty_done merge fuel { b with pushMetrics := p1 } tr hbuf batches hrun,
      pushRequests_drained merge _ _ tr batches⟩

theorem Send_failure_isolation_witness :
    ∃ b2 tr2,
      Send (fun xs => (xs, [])) 6
        ⟨"p", fun tr _ => if (pushRequests tr).length = 1 then some ⟨"unavailable"⟩ else none,
          fun _ => none, [1, 2, 3, 4, 5], 2⟩ [] = .done (b2, tr2) ∧
      pushRequests tr2 =
        [⟨"projects/p", [1, 2]⟩, ⟨"projects/p", [3, 4]⟩, ⟨"projects/p", [5]⟩] :=
  (Send_failure_isolation (fun xs => (xs, [])) 6
    ⟨"p", fun _ _ => none, fun _ => none, [1, 2, 3, 4, 5], 2⟩ []
    (fun tr _ => if (pushRequests tr).length = 1 then some ⟨"unavailable"⟩ else none)
    (fun _ _ => none)).2 [[1, 2], [3, 4], [5]] (by decide) (by decide)

/-! ## Claims about sequences of operations, Record and Close -/

/-- C6: no loss and no duplication across drains. For every finite sequence of operations
(`Record` and `Send`, and `Close` as well) run one after the other from an empty buffer, with
an identity merge and `timeSeriesBatchSize > 0`, the run returns and the time series of all
push calls made, in call order, followed by the buffer are exactly the arguments of the
`Record` calls, in call order. -/
theorem runOps_no_loss_no_duplication {α : Type} (merge : mergeFunc α)
    (hid : ∀ xs, (merge xs).1 = xs) (ops : List (Op α)) (b : buffered α)
    (hbuf : b.buffer = []) (h0 : 0 < b.timeSeriesBatchSize)
    (hmax : b.timeSeriesBatchSize ≤ maxInt) (hlen : (recorded ops).length ≤ maxSliceLen)
    (fuel : Nat) (hfuel : (recorded ops).length < fuel) :
    ∃ b2 tr2, runOps merge fuel ops b [] = .done (b2, tr2) ∧
      pushedSeries tr2 ++ b2.buffer = recorded ops := by
  obtain ⟨b2, tr2, hrun, hinv⟩ := runOps_conserves merge hid fuel ops b [] h0 hmax
    (by rw [hbuf]; simpa using hlen) (by rw [hbuf]; simpa using hfuel)
  refine ⟨b2, tr2, hrun, ?_⟩
  rw [hinv, hbuf]
  simp [pushedSeries, pushRequests]

theorem runOps_no_loss_no_duplication_witness :
    ∃ b2 tr2,
      runOps (fun xs => (xs, [])) 8
        [Op.record [1, 2, 3], Op.send, Op.record [4], Op.record [5, 6], Op.send, Op.record [7]]
        ⟨"p", fun _ _ => none, fun _ => none, [], 2⟩ [] = .done (b2, tr2) ∧
      pushedSeries tr2 ++ b2.buffer = [1, 2, 3, 4, 5, 6, 7] :=
  runOps_no_loss_no_duplication (fun xs => (xs, [])) (fun _ => rfl)
    [Op.record [1, 2, 3], Op.send, Op.record [4], Op.record [5, 6], Op.send, Op.record [7]]
    ⟨"p", fun _ _ => none, fun _ => none, [], 2⟩ rfl (by decide) (by decide) (by decide)
    8 (by decide)

/-- C7: a flush of an empty buffer is a no-op. For every state whose buffer is empty, `Send`
returns with the state unchanged, makes no push call and no close call, and writes exactly one
log entry, the debug-level "No data to send to Stackdriver."; the same holds when `Record` was
first called with zero points. -/
theorem Send_empty_buffer_noop {α : Type} (merge : mergeFunc α) (fuel : Nat) (b : buffered α)
    (tr : List (Event α)) (hbuf : b.buffer = []) :
    (∃ tr2, Send merge fuel b tr = .done (b, tr2) ∧
      pushRequests tr2 = pushRequests tr ∧ closeCalls tr2 = closeCalls tr ∧
      logEntries tr2 =
        logEntries tr ++ [⟨Level.debug, "No data to send to Stackdriver.", []⟩]) ∧
    (∃ tr3, Send merge fuel (Record b [] tr).1 (Record b [] tr).2 = .done (b, tr3) ∧
      pushRequests tr3 = pushRequests tr ∧ closeCalls tr3 = closeCalls tr ∧
      logEntries tr3 =
        logEntries tr ++ [⟨Level.debug, "No data to send to Stackdriver.", []⟩]) := by
  constructor
  · refine ⟨_, Send_empty merge fuel b tr hbuf, ?_, ?_, ?_⟩
    · simp [pushRequests]
    · simp [closeCalls]
    · simp [logEntries]
  · have hrec : (Record b [] tr).1 = b := by
      cases b
      simp [Record]
    rw [hrec]
    refine ⟨_, Send_empty merge fuel b _ hbuf, ?_, ?_, ?_⟩
    · simp [Record, pushRequests]
    · simp [Record, closeCalls]
    · simp [Record, logEntries]

theorem Send_empty_buffer_noop_witness :
    ∃ tr2, Send (fun xs => (xs, [])) 0
        (⟨"p", fun _ _ => some ⟨"down"⟩, fun _ => none, [], 2⟩ : buffered Nat) [] =
          .done (⟨"p", fun _ _ => some ⟨"down"⟩, fun _ => none, [], 2⟩, tr2) ∧
      pushRequests tr2 = [] ∧ closeCalls tr2 = [] ∧
      logEntries tr2 = [⟨Level.debug, "No data to send to Stackdriver.", []⟩] :=
  (Send_empty_buffer_noop (fun xs => (xs, [])) 0
    (⟨"p", fun _ _ => some ⟨"down"⟩, fun _ => none, [], 2⟩ : buffered Nat) [] rfl).1

/-- C8: for every state and every argument `toSend`, `Record` leaves the buffer equal to the old
buffer followed by `toSend`, makes no push call, no close call and no log entry, and changes no
other field; its result carries no error. -/
theorem Record_appends {α : Type} (b : buffered α) (toSend : List α) (tr : List (Event α)) :
    (Record b toSend tr).1.buffer = b.buffer ++ toSend ∧
    pushRequests (Record b toSend tr).2 = pushRequests tr ∧
    closeCalls (Record b toSend tr).2 = closeCalls tr ∧
    logEntries (Record b toSend tr).2 = logEntries tr ∧
    (Record b toSend tr).1.project = b.project ∧
    (Record b toSend tr).1.timeSeriesBatchSize = b.timeSeriesBatchSize ∧
    (Record b toSend tr).1.pushMetrics = b.pushMetrics ∧
    (Record b toSend tr).1.closeMe = b.closeMe := by
  refine ⟨rfl, ?_, ?_, ?_, rfl, rfl, rfl, rfl⟩
  · simp [Record, pushRequests]
  · simp [Record, closeCalls]
  · simp [Record, logEntries]

/-- C9: what `Close` returns is exactly the result of `closeMe.Close()`. For every state, merge
function, push function and closer: whenever `Close` returns, its last event is the one call of
`closeMe.Close` and the error returned is that call's result, whatever the pushes of the final
flush answered; and `Close` does return for every buffer content when the batch size is
positive. -/
theorem Close_returns_closer_result {α : Type} (merge : mergeFunc α) (b : buffered α)
    (tr : List (Event α)) :
    (∀ fuel b2 tr2 err, Close merge fuel b tr = .done (b2, tr2, err) →
      ∃ tr1, tr2 = tr1 ++ [Event.close err] ∧ err = b.closeMe tr1 ∧
        closeCalls tr1 = closeCalls tr) ∧
    (0 < b.timeSeriesBatchSize → b.timeSeriesBatchSize ≤ maxInt →
      (merge b.buffer).1.length ≤ maxSliceLen →
      ∀ fuel, (merge b.buffer).1.length < fuel →
        ∃ b2 tr1, Close merge fuel b tr =
          .done (b2, tr1 ++ [Event.close (b.closeMe tr1)], b.closeMe tr1)) := by
  constructor
  · intro fuel b2 tr2 err hclose
    obtain ⟨tr1, hsend, htr, herr⟩ := (Close_done_iff merge fuel b tr b2 tr2 err).1 hclose
    have hb2 := Send_done_fields merge fuel b b2 _ tr1 hsend
    have hcm : b2.closeMe = b.closeMe := by rw [hb2]
    refine ⟨tr1, ?_, ?_, ?_⟩
    · rw [htr, herr]
    · rw [herr, hcm]
    · by_cases hbuf : b.buffer = []
      · rw [Send_empty merge fuel b _ hbuf] at hsend
        simp only [Run.done.injEq, Prod.mk.injEq] at hsend
        rw [← hsend.2]
        simp [closeCalls]
      · rw [Send_nonempty merge fuel b _ hbuf] at hsend
        cases hrun : batchTimeSeries fuel (merge b.buffer).1 b.timeSeriesBatchSize with
        | done batches =>
          rw [hrun] at hsend
          simp only [Run.map, Run.done.injEq, Prod.mk.injEq] at hsend
          rw [← hsend.2, closeCalls_pushLoop]
          simp [drainedTrace, closeCalls]
        | panicked => rw [hrun] at hsend; cases hsend
        | outOfFuel => rw [hrun] at hsend; cases hsend
  · intro h0 hmax hlen fuel hfuel
    obtain ⟨_, tr1, hsend, _, _, _, _⟩ := Send_returns merge b
      (tr ++ [Event.log ⟨Level.info, "Sending last data before shutting down", []⟩])
      h0 hmax hlen fuel hfuel
    exact ⟨{ b with buffer := [] }, tr1,
      (Close_done_iff merge fuel b tr _ _ _).2 ⟨tr1, hsend, rfl, rfl⟩⟩

theorem Close_returns_closer_result_witness :
    (∃ b2 tr1, Close (fun xs => (xs, [])) 4
        ⟨"p", fun _ _ => some ⟨"down"⟩, fun _ => none, [1, 2, 3], 2⟩ [] =
          .done (b2, tr1 ++ [Event.close none], none)) ∧
    (∃ b2 tr1, Close (fun xs => (xs, [])) 4
        ⟨"p", fun _ _ => none, fun _ => some ⟨"close failed"⟩, [1, 2, 3], 2⟩ [] =
          .done (b2, tr1 ++ [Event.close (some ⟨"close failed"⟩)], some ⟨"close failed"⟩)) :=
  ⟨(Close_returns_closer_result (fun xs => (xs, []))
      ⟨"p", fun _ _ => some ⟨"down"⟩, fun _ => none, [1, 2, 3], 2⟩ []).2
        (by decide) (by decide) (by decide) 4 (by decide),
    (Close_returns_closer_result (fun xs => (xs, []))
      ⟨"p", fun _ _ => none, fun _ => some ⟨"close failed"⟩, [1, 2, 3], 2⟩ []).2
        (by decide) (by decide) (by decide) 4 (by decide)⟩

/-- C10, as stated, fails: in the state with buffer `[1]` and `timeSeriesBatchSize = 0` the split
inside the flush never leaves its loop, so `Close` returns for no amount of fuel and
`closeMe.Close` is never called. -/
theorem Close_zero_batch_size_never_closes :
    ¬ ∃ fuel r, Close (fun xs => (xs, [])) fuel
      (⟨"p", fun _ _ => none, fun _ => none, [1], 0⟩ : buffered Nat) [] = .done r := by
  rintro ⟨fuel, r, h⟩
  unfold Close at h
  simp only [] at h
  rw [Send_zero_batch_size (fun xs => (xs, [])) fuel _ _ (by decide) (by decide) rfl] at h
  cases h

/-- C10, amended: for every state with a non-empty buffer and `timeSeriesBatchSize > 0`, one
call of `Close` returns after exactly one flush cycle followed by exactly one call of
`closeMe.Close`: its trace is its log line, the events of one `Send` on that state, and then
the close call as the last event, after every push; the push requests are those `Send` makes on
that state. -/
theorem Close_flushes_once_then_closes {α : Type} (merge : mergeFunc α) (b : buffered α)
    (tr : List (Event α)) (hbuf : b.buffer ≠ []) (h0 : 0 < b.timeSeriesBatchSize)
    (hmax : b.timeSeriesBatchSize ≤ maxInt) (hlen : (merge b.buffer).1.length ≤ maxSliceLen)
    (fuel : Nat) (hfuel : (merge b.buffer).1.length < fuel) :
    ∃ b2 tr1 trS batches,
      batchTimeSeries fuel (merge b.buffer).1 b.timeSeriesBatchSize = .done batches ∧
      Send merge fuel b
        (tr ++ [Event.log ⟨Level.info, "Sending last data before shutting down", []⟩]) =
          .done (b2, tr1) ∧
      Close merge fuel b tr =
        .done (b2, tr1 ++ [Event.close (b.closeMe tr1)], b.closeMe tr1) ∧
      Send merge fuel b tr = .done (b2, trS) ∧
      pushRequests trS = pushRequests tr ++ batches.map (requestFor b) ∧
      pushRequests (tr1 ++ [Event.close (b.closeMe tr1)]) =
        pushRequests tr ++ batches.map (requestFor b) ∧
      closeCalls trS = closeCalls tr ∧
      closeCalls (tr1 ++ [Event.close (b.closeMe tr1)]) =
        closeCalls tr ++ [b.closeMe tr1] := by
  obtain ⟨batches, hrun, _, _, _⟩ :=
    batchTimeSeries_done (merge b.buffer).1 b.timeSeriesBatchSize h0 hmax hlen fuel hfuel
  have hS1 := Send_nonempty_done merge fuel b
    (tr ++ [Event.log ⟨Level.info, "Sending last data before shutting down", []⟩])
    hbuf batches hrun
  have hS := Send_nonempty_done merge fuel b tr hbuf batches hrun
  refine ⟨_, _, _, batches, hrun, hS1, ?_, hS, ?_, ?_, ?_, ?_⟩
  · exact (Close_done_iff merge fuel b tr _ _ _).2 ⟨_, hS1, rfl, rfl⟩
  · exact pushRequests_drained merge b _ tr batches
  · rw [pushRequests_append, pushRequests_drained]
    simp [pushRequests, requestFor]
  · rw [closeCalls_pushLoop]
    simp [drainedTrace, closeCalls]
  · rw [closeCalls_append, closeCalls_pushLoop]
    simp [drainedTrace, closeCalls]

theorem Close_flushes_once_then_closes_witness :
    ∃ b2 tr1,
      Close (fun xs => (xs, [])) 4
        ⟨"p", fun _ _ => none, fun _ => none, ["A", "B", "C"], 2⟩ [] =
          .done (b2, tr1 ++ [Event.close none], none) ∧
      pushRequests (tr1 ++ [Event.close none]) =
        [⟨"projects/p", ["A", "B"]⟩, ⟨"projects/p", ["C"]⟩] ∧
      closeCalls (tr1 ++ [Event.close none]) = [none] := by
  obtain ⟨b2, tr1, trS, batches, hbatch, _, hclose, _, _, hpush, _, hcalls⟩ :=
    Close_flushes_once_then_closes (fun xs => (xs, []))
      ⟨"p", fun _ _ => none, fun _ => none, ["A", "B", "C"], 2⟩ []
      (by decide) (by decide) (by decide) (by decide) 4 (by decide)
  have hb : batches = [["A", "B"], ["C"]] := by
    have h2 : batchTimeSeries 4 ["A", "B", "C"] 2 = .done [["A", "B"], ["C"]] := by decide
    rw [h2] at hbatch
    cases hbatch
    rfl
  subst hb
  exact ⟨b2, tr1, hclose, by simpa [requestFor, pushRequests] using hpush,
    by simpa [closeCalls] using hcalls⟩

/-! ## Claims about the shape, termination and bounds of the split -/

/-- C14: for every series of length `n` and every limit `tsLimit > 0`, `batchTimeSeries` returns
exactly `ceil(n / tsLimit)` batches; batch number `k` (from 0) is the slice
`series[k*tsLimit : min((k+1)*tsLimit, n)]`; every batch but the last has exactly `tsLimit`
elements, and the last, when `n > 0`, has `n - (ceil(n / tsLimit) - 1) * tsLimit` elements,
which is between 1 and `tsLimit`. -/
theorem batchTimeSeries_shape {α : Type} (series : List α) (tsLimit : Int)
    (h0 : 0 < tsLimit) (hmax : tsLimit ≤ maxInt) (hlen : series.length ≤ maxSliceLen)
    (fuel : Nat) (hfuel : series.length < fuel) :
    ∃ batches, batchTimeSeries fuel series tsLimit = .done batches ∧
      batches.length = ceilDiv series.length tsLimit.toNat ∧
      (∀ k, k < batches.length → batches[k]? = some (sliceRange series ((k : Int) * tsLimit)
        (min (((k : Int) + 1) * tsLimit) (series.length : Int)))) ∧
      (∀ k, k + 1 < batches.length → batches[k]?.map List.length = some tsLimit.toNat) ∧
      (0 < series.length →
        batches.getLast?.map List.length = some
          (series.length - (ceilDiv series.length tsLimit.toNat - 1) * tsLimit.toNat) ∧
        1 ≤ series.length - (ceilDiv series.length tsLimit.toNat - 1) * tsLimit.toNat ∧
        series.length - (ceilDiv series.length tsLimit.toNat - 1) * tsLimit.toNat ≤
          tsLimit.toNat) := by
  have hrun := batchTimeSeries_closed_form series tsLimit h0 hmax hlen fuel
    (lt_of_le_of_lt (ceilDiv_le _ _ (by omega)) hfuel)
  obtain ⟨t, rfl⟩ := Int.eq_ofNat_of_zero_le (le_of_lt h0)
  have ht : 0 < t := by exact_mod_cast h0
  simp only [Int.toNat_ofNat] at hrun ⊢
  obtain ⟨hub, hlb⟩ := ceilDiv_bounds series.length t ht
  refine ⟨_, hrun, by simp, ?_, ?_, ?_⟩
  · intro k hk
    simp only [List.length_map, List.length_range] at hk
    rw [List.getElem?_map, List.getElem?_range hk, sliceRange_batch]
    rfl
  · intro k hk
    simp only [List.length_map, List.length_range] at hk
    have hk2 : k < ceilDiv series.length t := by omega
    rw [List.getElem?_map, List.getElem?_range hk2]
    simp only [Option.map_some', List.length_take, List.length_drop, Option.some.injEq]
    have hle : (k + 1) * t ≤ (ceilDiv series.length t - 1) * t :=
      Nat.mul_le_mul_right t (by omega)
    have hexp : (k + 1) * t = k * t + t := by rw [Nat.add_mul, Nat.one_mul]
    have hcn := ceilDiv_le series.length t ht
    have := (hlb (by omega)).2
    omega
  · intro hn
    obtain ⟨hq, hlast⟩ := hlb hn
    have hexp : ceilDiv series.length t * t = (ceilDiv series.length t - 1) * t + t := by
      rw [Nat.sub_mul, Nat.one_mul]
      have : t ≤ ceilDiv series.length t * t := Nat.le_mul_of_pos_left t hq
      omega
    refine ⟨?_, by omega, by omega⟩
    rw [List.getLast?_eq_getElem?, List.getElem?_map]
    simp only [List.length_map, List.length_range]
    rw [List.getElem?_range (by omega)]
    simp only [Option.map_some', List.length_take, List.length_drop, Option.some.injEq]
    omega

theorem batchTimeSeries_shape_witness :
    ∃ batches, batchTimeSeries 8 [1, 2, 3, 4, 5, 6, 7] 3 = .done batches ∧
      batches.length = 3 ∧ batches.getLast?.map List.length = some 1 := by
  obtain ⟨batches, hrun, hcount, _, _, hlast⟩ :=
    batchTimeSeries_shape [1, 2, 3, 4, 5, 6, 7] 3 (by decide) (by decide) (by decide) 8
      (by decide)
  exact ⟨batches, hrun, hcount, (hlast (by decide)).1⟩

/-- C15: under `tsLimit > 0` the loop of `batchTimeSeries` terminates for every series. One
iteration takes the index from `k * tsLimit` to `(k + 1) * tsLimit`, which is larger, and after
`ceil(len(series) / tsLimit)` iterations the loop test fails and the function returns, one batch
having been appended per iteration. -/
theorem batchTimeSeries_terminates {α : Type} (series : List α) (tsLimit : Int)
    (h0 : 0 < tsLimit) (hmax : tsLimit ≤ maxInt) (hlen : series.length ≤ maxSliceLen) :
    (∀ (fuel k : Nat) (batches : List (List α)),
      (k : Int) * tsLimit < (series.length : Int) →
      (k : Int) * tsLimit < ((k : Int) + 1) * tsLimit ∧
      batchLoop series tsLimit (fuel + 1) ((k : Int) * tsLimit) batches =
        batchLoop series tsLimit fuel (((k : Int) + 1) * tsLimit)
          (batches ++ [sliceRange series ((k : Int) * tsLimit)
            (min (((k : Int) + 1) * tsLimit) (series.length : Int))])) ∧
    (∀ fuel, ceilDiv series.length tsLimit.toNat < fuel →
      ∃ batches, batchTimeSeries fuel series tsLimit = .done batches ∧
        batches.length = ceilDiv series.length tsLimit.toNat) := by
  constructor
  · obtain ⟨t, rfl⟩ := Int.eq_ofNat_of_zero_le (le_of_lt h0)
    have ht : 0 < t := by exact_mod_cast h0
    intro fuel k batches hk
    have hk2 : k * t < series.length := by exact_mod_cast hk
    have e0 : (k : Int) * (t : Int) = ((k * t : Nat) : Int) := by push_cast; rfl
    have e1 : ((k : Int) + 1) * (t : Int) = ((k * t + t : Nat) : Int) := by push_cast; ring
    refine ⟨by rw [e0, e1]; exact_mod_cast (by omega : k * t < k * t + t), ?_⟩
    rw [sliceRange_batch, e1, e0]
    refine batchLoop_step series t hmax hlen fuel (k * t) batches ?_ hk2
    rcases Nat.eq_zero_or_pos k with rfl | hpos
    · left; simp
    · right; exact Nat.le_mul_of_pos_left t hpos
  · intro fuel hfuel
    exact ⟨_, batchTimeSeries_closed_form series tsLimit h0 hmax hlen fuel hfuel, by simp⟩

theorem batchTimeSeries_terminates_witness :
    ∃ batches, batchTimeSeries 4 [1, 2, 3, 4, 5, 6, 7] 3 = .done batches ∧
      batches.length = 3 :=
  (batchTimeSeries_terminates [1, 2, 3, 4, 5, 6, 7] 3 (by decide) (by decide) (by decide)).2 4
    (by decide)

/-- C19: under `tsLimit > 0` every slice expression `series[i:e]` evaluated by
`batchTimeSeries` is in bounds, `0 ≤ i < e ≤ len(series)`, so the function panics for no amount
of fuel; the batches returned are the slices at exactly those index pairs. For a negative
`tsLimit` and a non-empty series the first slice expression is `series[0:e]` with
`e = tsLimit < 0`, so `e < i`, and the function panics there. -/
theorem batchTimeSeries_slice_bounds {α : Type} (series : List α) (tsLimit : Int) :
    (0 < tsLimit → tsLimit ≤ maxInt → series.length ≤ maxSliceLen →
      (∀ fuel, ∀ p ∈ sliceIndices series tsLimit fuel 0,
        0 ≤ p.1 ∧ p.1 < p.2 ∧ p.2 ≤ (series.length : Int)) ∧
      (∀ fuel, batchTimeSeries fuel series tsLimit ≠ .panicked) ∧
      (∀ fuel, series.length < fuel →
        batchTimeSeries fuel series tsLimit = .done
          ((sliceIndices series tsLimit fuel 0).map (fun p => sliceRange series p.1 p.2)))) ∧
    (tsLimit < 0 → minInt ≤ tsLimit → series ≠ [] →
      ∀ fuel, sliceIndices series tsLimit (fuel + 1) 0 = [(0, tsLimit)] ∧
        (∀ p ∈ sliceIndices series tsLimit (fuel + 1) 0, p.2 < p.1) ∧
        batchTimeSeries (fuel + 1) series tsLimit = .panicked) := by
  constructor
  · intro h0 hmax hlen
    refine ⟨?_, ?_, ?_⟩
    · intro fuel
      obtain ⟨t, rfl⟩ := Int.eq_ofNat_of_zero_le (le_of_lt h0)
      have ht : 0 < t := by exact_mod_cast h0
      exact sliceIndices_in_bounds series t ht hmax hlen fuel 0 (Or.inl rfl)
    · intro fuel
      obtain ⟨t, rfl⟩ := Int.eq_ofNat_of_zero_le (le_of_lt h0)
      unfold batchTimeSeries
      exact batchLoop_not_panicked series t hmax hlen fuel 0 [] (Or.inl rfl)
    · intro fuel hfuel
      obtain ⟨batches, hrun, _⟩ :=
        batchTimeSeries_done series tsLimit h0 hmax hlen fuel hfuel
      have htie := batchLoop_eq_map_sliceIndices series tsLimit fuel 0 [] batches hrun
      rw [hrun, htie]
      rfl
  · intro hneg hmin hne fuel
    have hidx := sliceIndices_negative_limit series tsLimit hneg hmin hne fuel
    refine ⟨hidx, ?_, ?_⟩
    · intro p hp
      rw [hidx] at hp
      rcases List.mem_singleton.1 hp with rfl
      exact hneg
    · unfold batchTimeSeries
      exact batchLoop_negative_limit series tsLimit hneg hmin hne fuel []

theorem batchTimeSeries_slice_bounds_witness :
    ((∀ fuel, ∀ p ∈ sliceIndices [1, 2, 3] 2 fuel 0, 0 ≤ p.1 ∧ p.1 < p.2 ∧ p.2 ≤ 3) ∧
      sliceIndices [1, 2, 3] 2 3 0 = [(0, 2), (2, 3)] ∧
      (∀ fuel, batchTimeSeries fuel [1, 2, 3] 2 ≠ .panicked)) ∧
    (∀ fuel, sliceIndices [1, 2, 3] (-2) (fuel + 1) 0 = [(0, -2)] ∧
      batchTimeSeries (fuel + 1) [1, 2, 3] (-2) = .panicked) :=
  ⟨⟨((batchTimeSeries_slice_bounds [1, 2, 3] 2).1 (by decide) (by decide) (by decide)).1,
      by decide,
      ((batchTimeSeries_slice_bounds [1, 2, 3] 2).1 (by decide) (by decide) (by decide)).2.1⟩,
    fun fuel =>
      ⟨(((batchTimeSeries_slice_bounds [1, 2, 3] (-2)).2
          (by decide) (by decide) (by decide)) fuel).1,
        (((batchTimeSeries_slice_bounds [1, 2, 3] (-2)).2
          (by decide) (by decide) (by decide)) fuel).2.2⟩⟩

/-- C20: the batch size limit is not validated. For `tsLimit = 0` and every non-empty series one
iteration of the loop leaves the index at `0`, where the test `i < len(series)` still holds, and
appends one empty batch; so `batchTimeSeries` returns for no amount of fuel, and neither does
`Send` on a non-empty buffer (whose merged data is non-empty) with `timeSeriesBatchSize = 0`. -/
theorem batchTimeSeries_zero_limit_diverges {α : Type} (series : List α) (hne : series ≠ []) :
    (∀ (fuel : Nat) (batches : List (List α)),
      batchLoop series 0 (fuel + 1) 0 batches = batchLoop series 0 fuel 0 (batches ++ [[]])) ∧
    (0 : Int) < (series.length : Int) ∧
    (∀ fuel, batchTimeSeries fuel series 0 = .outOfFuel) ∧
    (∀ (merge : mergeFunc α) (b : buffered α) (tr : List (Event α)) (fuel : Nat),
      b.buffer ≠ [] → (merge b.buffer).1 = series → b.timeSeriesBatchSize = 0 →
      Send merge fuel b tr = .outOfFuel) := by
  refine ⟨batchLoop_zero_limit_step series hne, ?_, ?_, ?_⟩
  · have := List.length_pos.2 hne
    exact_mod_cast this
  · intro fuel
    unfold batchTimeSeries
    exact batchLoop_zero_limit series hne fuel []
  · intro merge b tr fuel hbuf hmerged hsize
    exact Send_zero_batch_size merge fuel b tr hbuf (by rw [hmerged]; exact hne) hsize

theorem batchTimeSeries_zero_limit_diverges_witness :
    (∀ fuel, batchTimeSeries fuel [1, 2] 0 = .outOfFuel) ∧
      (∀ fuel, Send (fun xs => (xs, [])) fuel
        ⟨"p", fun _ _ => none, fun _ => none, [1, 2], 0⟩ [] = .outOfFuel) :=
  ⟨(batchTimeSeries_zero_limit_diverges [1, 2] (by decide)).2.2.1,
    fun fuel => (batchTimeSeries_zero_limit_diverges [1, 2] (by decide)).2.2.2
      (fun xs => (xs, [])) ⟨"p", fun _ _ => none, fun _ => none, [1, 2], 0⟩ [] fuel
      (by decide) rfl rfl⟩

/-! ## Claims about repeated flushes, closing, naming, logging and the guard -/

/-- C11: already-drained data is never re-sent. Whenever a `Send` or a `Close` has returned,
whatever its pushes answered, the buffer is empty, and a `Send` or `Close` that follows with no
`Record` in between returns having made no push call; the same holds for any number of `Send`
and `Close` calls that follow, so the data of a failed batch appears in no later push. -/
theorem drained_data_never_resent {α : Type} (merge : mergeFunc α) (b : buffered α)
    (tr : List (Event α)) :
    (∀ fuel b1 tr1, Send merge fuel b tr = .done (b1, tr1) →
      b1.buffer = [] ∧
      (∀ fuel2, ∃ tr2, Send merge fuel2 b1 tr1 = .done (b1, tr2) ∧
        pushRequests tr2 = pushRequests tr1) ∧
      (∀ fuel2, ∃ tr2 err2, Close merge fuel2 b1 tr1 = .done (b1, tr2, err2) ∧
        pushRequests tr2 = pushRequests tr1) ∧
      (∀ ops : List (Op α), (∀ op ∈ ops, op = Op.send ∨ op = Op.close) →
        ∀ fuel2, ∃ tr2, runOps merge fuel2 ops b1 tr1 = .done (b1, tr2) ∧
          pushRequests tr2 = pushRequests tr1)) ∧
    (∀ fuel b1 tr1 err, Close merge fuel b tr = .done (b1, tr1, err) →
      b1.buffer = [] ∧
      (∀ fuel2, ∃ tr2, Send merge fuel2 b1 tr1 = .done (b1, tr2) ∧
        pushRequests tr2 = pushRequests tr1) ∧
      (∀ fuel2, ∃ tr2 err2, Close merge fuel2 b1 tr1 = .done (b1, tr2, err2) ∧
        pushRequests tr2 = pushRequests tr1) ∧
      (∀ ops : List (Op α), (∀ op ∈ ops, op = Op.send ∨ op = Op.close) →
        ∀ fuel2, ∃ tr2, runOps merge fuel2 ops b1 tr1 = .done (b1, tr2) ∧
          pushRequests tr2 = pushRequests tr1)) := by
  constructor
  · intro fuel b1 tr1 hS
    have hb : b1.buffer = [] := by rw [Send_done_fields merge fuel b b1 tr tr1 hS]
    exact ⟨hb, drained_pushes_nothing merge b1 tr1 hb⟩
  · intro fuel b1 tr1 err hC
    obtain ⟨trS, hS, _, _⟩ := (Close_done_iff merge fuel b tr b1 tr1 err).1 hC
    have hb : b1.buffer = [] := by rw [Send_done_fields merge fuel b b1 _ trS hS]
    exact ⟨hb, drained_pushes_nothing merge b1 tr1 hb⟩

theorem drained_data_never_resent_witness :
    ∀ fuel2, ∃ tr2 err2,
      Close (fun xs => (xs, [])) fuel2
        ⟨"p", fun _ _ => some ⟨"down"⟩, fun _ => none, [], 2⟩
        [Event.lock, Event.unlock, Event.mergeCall [1],
          Event.push ⟨"projects/p", [1]⟩ (some ⟨"down"⟩),
          Event.log ⟨Level.error, "Stackdriver returned: %v\nGiven data: %v",
            [LogArg.err ⟨"down"⟩, LogArg.series [1]]⟩] =
        .done (⟨"p", fun _ _ => some ⟨"down"⟩, fun _ => none, [], 2⟩, tr2, err2) ∧
      pushRequests tr2 = [⟨"projects/p", [1]⟩] :=
  ((drained_data_never_resent (fun xs => (xs, []))
    ⟨"p", fun _ _ => some ⟨"down"⟩, fun _ => none, [1], 2⟩ []).1 2
    ⟨"p", fun _ _ => some ⟨"down"⟩, fun _ => none, [], 2⟩
    [Event.lock, Event.unlock, Event.mergeCall [1],
      Event.push ⟨"projects/p", [1]⟩ (some ⟨"down"⟩),
      Event.log ⟨Level.error, "Stackdriver returned: %v\nGiven data: %v",
        [LogArg.err ⟨"down"⟩, LogArg.series [1]]⟩] rfl).2.2.1

/-- C12, as stated, fails: two `Close` calls in a row on the client with buffer `[1]` call
`closeMe.Close` twice. -/
theorem Close_twice_closes_twice :
    (runOps (fun xs => (xs, [])) 2 [Op.close, Op.close]
      ⟨"p", fun _ _ => none, fun _ => none, [1], 2⟩ []).map
        (fun r => (closeCalls r.2).length) = .done 2 := by
  decide

/-- C12, amended: `closeMe.Close` is called at most once per `Close` operation. For every finite
sequence of `Record`, `Send` and `Close` operations on one client, from every state, whether
the run returns or stops inside an operation, the number of `closeMe.Close` calls made is at
most the number of `Close` operations in the sequence; so it is called at most once in total
when the sequence holds at most one `Close`. -/
theorem closeMe_closed_at_most_once_per_Close {α : Type} (merge : mergeFunc α) (fuel : Nat)
    (ops : List (Op α)) (b : buffered α) (tr : List (Event α)) :
    (closeCalls (runOpsTrace merge fuel ops b tr)).length ≤
      (closeCalls tr).length + closeOps ops ∧
    (closeOps ops ≤ 1 → (closeCalls (runOpsTrace merge fuel ops b [])).length ≤ 1) ∧
    (∀ b2 tr2, runOps merge fuel ops b tr = .done (b2, tr2) →
      runOpsTrace merge fuel ops b tr = tr2) := by
  refine ⟨closeCalls_runOpsTrace_le merge fuel ops b tr, ?_,
    fun b2 tr2 h => runOpsTrace_of_done merge fuel ops b b2 tr tr2 h⟩
  intro hone
  have h := closeCalls_runOpsTrace_le merge fuel ops b []
  have h0 : (closeCalls ([] : List (Event α))).length = 0 := rfl
  omega

theorem closeMe_closed_at_most_once_per_Close_witness :
    (closeCalls (runOpsTrace (fun xs => (xs, [])) 5
      [Op.record [1, 2, 3], Op.send, Op.record [4], Op.close]
      ⟨"p", fun _ _ => none, fun _ => none, [], 2⟩ [])).length ≤ 1 ∧
    (closeCalls (runOpsTrace (fun xs => (xs, [])) 5 [Op.close]
      ⟨"p", fun _ _ => none, fun _ => none, [1], 0⟩ [])).length ≤ 1 :=
  ⟨(closeMe_closed_at_most_once_per_Close (fun xs => (xs, [])) 5
      [Op.record [1, 2, 3], Op.send, Op.record [4], Op.close]
      ⟨"p", fun _ _ => none, fun _ => none, [], 2⟩ []).2.1 (by decide),
    (closeMe_closed_at_most_once_per_Close (fun xs => (xs, [])) 5 [Op.close]
      ⟨"p", fun _ _ => none, fun _ => none, [1], 0⟩ []).2.1 (by decide)⟩

/-- C16: every submission is tagged with the same target. `Record` makes no push call; every
push call made by a `Send` or a `Close` carries the name `"projects/"` followed by the client's
`project`; and none of the three changes `project` or `timeSeriesBatchSize`. -/
theorem requests_named_after_project {α : Type} (merge : mergeFunc α) (b : buffered α)
    (tr : List (Event α)) :
    (∀ toSend, (Record b toSend tr).1.project = b.project ∧
      (Record b toSend tr).1.timeSeriesBatchSize = b.timeSeriesBatchSize ∧
      pushRequests (Record b toSend tr).2 = pushRequests tr) ∧
    (∀ fuel b2 tr2, Send merge fuel b tr = .done (b2, tr2) →
      b2.project = b.project ∧ b2.timeSeriesBatchSize = b.timeSeriesBatchSize ∧
      ∃ made, pushRequests tr2 = pushRequests tr ++ made ∧
        ∀ req ∈ made, req.Name = "projects/" ++ b.project) ∧
    (∀ fuel b2 tr2 err, Close merge fuel b tr = .done (b2, tr2, err) →
      b2.project = b.project ∧ b2.timeSeriesBatchSize = b.timeSeriesBatchSize ∧
      ∃ made, pushRequests tr2 = pushRequests tr ++ made ∧
        ∀ req ∈ made, req.Name = "projects/" ++ b.project) := by
  have hname : ∀ batches : List (List α), ∀ req ∈ batches.map (requestFor b),
      req.Name = "projects/" ++ b.project := by
    intro batches req hreq
    obtain ⟨ts, _, rfl⟩ := List.mem_map.1 hreq
    rfl
  refine ⟨fun toSend => ⟨rfl, rfl, by simp [Record, pushRequests]⟩, ?_, ?_⟩
  · intro fuel b2 tr2 hS
    have hb := Send_done_fields merge fuel b b2 tr tr2 hS
    obtain ⟨batches, hpush, _, _⟩ := Send_done_requests merge fuel b b2 tr tr2 hS
    exact ⟨by rw [hb], by rw [hb], batches.map (requestFor b), hpush, hname batches⟩
  · intro fuel b2 tr2 err hC
    obtain ⟨tr1, hS, rfl, _⟩ := (Close_done_iff merge fuel b tr b2 tr2 err).1 hC
    have hb := Send_done_fields merge fuel b b2 _ tr1 hS
    obtain ⟨batches, hpush, _, _⟩ := Send_done_requests merge fuel b b2 _ tr1 hS
    refine ⟨by rw [hb], by rw [hb], batches.map (requestFor b), ?_, hname batches⟩
    rw [pushRequests_append, hpush]
    simp [pushRequests]

theorem requests_named_after_project_witness :
    ∃ made, pushRequests
        [Event.lock, Event.unlock, Event.mergeCall [1],
          Event.push ⟨"projects/istio-test", [1]⟩ none,
          Event.log ⟨Level.debug, "Successfully sent data to Stackdriver.", []⟩] =
          pushRequests [] ++ made ∧
      ∀ req ∈ made, req.Name = "projects/" ++ "istio-test" :=
  ((requests_named_after_project (fun xs => (xs, []))
    ⟨"istio-test", fun _ _ => none, fun _ => none, [1], 2⟩ []).2.1 2
    ⟨"istio-test", fun _ _ => none, fun _ => none, [], 2⟩
    [Event.lock, Event.unlock, Event.mergeCall [1],
      Event.push ⟨"projects/istio-test", [1]⟩ none,
      Event.log ⟨Level.debug, "Successfully sent data to Stackdriver.", []⟩] rfl).2.2

/-- C17: per-batch logging in `Send`. In every non-empty flush whose split returns, the loop adds
to the trace, for each batch in order, the push of that batch followed at once by exactly one
log entry: an error-level entry whose arguments are the push error and the content of that
batch when the push failed, a debug-level entry when it succeeded. So the loop writes one entry
per batch, and as many error-level entries as pushes failed. -/
theorem Send_logs_each_batch {α : Type} (merge : mergeFunc α) (fuel : Nat) (b : buffered α)
    (tr : List (Event α)) (batches : List (List α)) (hbuf : b.buffer ≠ [])
    (hrun : batchTimeSeries fuel (merge b.buffer).1 b.timeSeriesBatchSize = .done batches) :
    ∃ errs : List (Option Error), errs.length = batches.length ∧
      Send merge fuel b tr = .done ({ b with buffer := [] },
        drainedTrace merge b tr ++ (batches.zip errs).flatMap (fun p =>
          [Event.push { Name := "projects/" ++ b.project, TimeSeries := p.1 } p.2,
            Event.log (batchLogEntry p.1 p.2)])) ∧
      (∀ (ts : List α) (e : Error), batchLogEntry ts (some e) =
        ⟨Level.error, "Stackdriver returned: %v\nGiven data: %v",
          [LogArg.err e, LogArg.series ts]⟩) ∧
      (∀ ts : List α, batchLogEntry ts none =
        ⟨Level.debug, "Successfully sent data to Stackdriver.", []⟩) ∧
      logEntries (loopEvents b batches errs) =
        (batches.zip errs).map (fun p => batchLogEntry p.1 p.2) ∧
      (logEntries (loopEvents b batches errs)).length = batches.length ∧
      (logEntries (loopEvents b batches errs)).countP
          (fun entry => decide (entry.level = Level.error)) =
        errs.countP (fun err => err.isSome) := by
  refine ⟨pushResults { b with buffer := [] } batches (drainedTrace merge b tr),
    pushResults_length _ _ _, ?_, fun _ _ => rfl, fun _ => rfl,
    logEntries_loopEvents b batches _, ?_, ?_⟩
  · rw [Send_nonempty_done merge fuel b tr hbuf batches hrun, pushLoop_events]
    rfl
  · rw [logEntries_loopEvents]
    simp [pushResults_length]
  · rw [logEntries_loopEvents, countP_error_batchLogEntry,
      map_snd_zip_of_length_eq batches _ (pushResults_length _ _ _)]

theorem Send_logs_each_batch_witness :
    ∃ errs : List (Option Error), errs.length = 3 ∧
      (logEntries (loopEvents
        (⟨"p", fun tr _ => if (pushRequests tr).length = 1 then some ⟨"unavailable"⟩ else none,
          fun _ => none, [1, 2, 3, 4, 5], 2⟩ : buffered Nat)
        [[1, 2], [3, 4], [5]] errs)).length = 3 := by
  obtain ⟨errs, hlen, _, _, _, _, hcount, _⟩ :=
    Send_logs_each_batch (fun xs => (xs, [])) 4
      (⟨"p", fun tr _ => if (pushRequests tr).length = 1 then some ⟨"unavailable"⟩ else none,
        fun _ => none, [1, 2, 3, 4, 5], 2⟩ : buffered Nat) []
      [[1, 2], [3, 4], [5]] (by decide) (by decide)
  exact ⟨errs, hlen, hcount⟩

/-- C18: the buffer guard is not held during I/O or transformation. `Record` locks once and
unlocks once and does nothing else. Every `Send` that returns has locked once and unlocked
once, and the unlock comes before everything else it does: before the call of `merge` (whose
result `batchTimeSeries` is then run on), before every push and before every log entry. -/
theorem guard_released_before_work {α : Type} (merge : mergeFunc α) (b : buffered α)
    (tr : List (Event α)) :
    (∀ toSend, (Record b toSend tr).2 = tr ++ [Event.lock, Event.unlock]) ∧
    (∀ fuel b2 tr2, Send merge fuel b tr = .done (b2, tr2) →
      ∃ rest, tr2 = tr ++ [Event.lock, Event.unlock] ++ rest ∧
        Event.lock ∉ rest ∧ Event.unlock ∉ rest ∧
        (b.buffer = [] →
          rest = [Event.log ⟨Level.debug, "No data to send to Stackdriver.", []⟩]) ∧
        (b.buffer ≠ [] → ∃ rest2, rest = Event.mergeCall b.buffer :: rest2)) := by
  refine ⟨fun toSend => by simp [Record], ?_⟩
  intro fuel b2 tr2 hS
  obtain ⟨_, hcase⟩ := Send_done_cases merge fuel b b2 tr tr2 hS
  rcases hcase with ⟨hbuf, rfl⟩ | ⟨hbuf, batches, _, rfl⟩
  · refine ⟨[Event.log ⟨Level.debug, "No data to send to Stackdriver.", []⟩], by simp,
      by simp, by simp, fun _ => rfl, fun h => absurd hbuf h⟩
  · rw [pushLoop_events]
    obtain ⟨hl, hu⟩ := lock_not_mem_loopEvents ({ b with buffer := [] } : buffered α) batches
      (pushResults { b with buffer := [] } batches (drainedTrace merge b tr))
    refine ⟨[Event.mergeCall b.buffer] ++ (merge b.buffer).2.map Event.log ++
      loopEvents { b with buffer := [] } batches
        (pushResults { b with buffer := [] } batches (drainedTrace merge b tr)), ?_, ?_, ?_,
      fun h => absurd h hbuf, fun _ => ⟨_, rfl⟩⟩
    · simp [drainedTrace]
    · simp [hl]
    · simp [hu]

theorem guard_released_before_work_witness :
    ∃ rest,
      [Event.lock, Event.unlock, Event.mergeCall [1], Event.push ⟨"projects/p", [1]⟩ none,
        Event.log ⟨Level.debug, "Successfully sent data to Stackdriver.", []⟩] =
          [] ++ [Event.lock, Event.unlock] ++ rest ∧
      Event.lock ∉ rest ∧ Event.unlock ∉ rest := by
  obtain ⟨rest, h1, h2, h3, _⟩ :=
    (guard_released_before_work (fun xs => (xs, []))
      ⟨"p", fun _ _ => none, fun _ => none, [1], 2⟩ []).2 2
      ⟨"p", fun _ _ => none, fun _ => none, [], 2⟩
      [Event.lock, Event.unlock, Event.mergeCall [1], Event.push ⟨"projects/p", [1]⟩ none,
        Event.log ⟨Level.debug, "Successfully sent data to Stackdriver.", []⟩] rfl
  exact ⟨rest, h1, h2, h3⟩

end metric
